import Mathlib

/-!
Verification of the promptbox template-variable engine and folder-tree
builder.

The definitions below are a shallow embedding of
`src/promptbox/utils/prompt_parser.py` (functions `extract_variables` and
`substitute_variables`) and of the folder-tree construction in
`src/promptbox/ui/prompt_view.py` (`get_folder_structure`, `get_all_paths`)
/ `src/promptbox/ui/character_view.py` (`get_card_folder_structure`, the
same algorithm applied to character cards).

Strings are modelled as their `List Char` data.  The Python regex classes
`\w` and `\s` are modelled on the ASCII range (the inputs exercised by the
claims are ASCII).  Python's `re.findall`/`re.sub` left-to-right,
non-overlapping scan is modelled by an explicit scanner with a fuel
argument equal to the length of the scanned text; every scanner step
consumes at least one character, so this fuel is always sufficient, and
fuel-irrelevance lemmas below make the fuel invisible to the theorems.

`re.sub(pattern, repl, s)` in CPython does NOT insert `repl` literally
when `repl` contains a backslash: the replacement is parsed as a
replacement template (`sre_parse.parse_template`), which interprets
escapes such as `\n`, octal escapes, and group references such as
`\g<0>`, and raises `re.error` for invalid escapes — even when the
pattern has no match in `s`.  This is modelled faithfully by `parseTmpl`
below (specialised to a pattern with zero capture groups, which is what
`substitute_variables` compiles); a raised exception is modelled as
`none`.  Exotic forms accepted by Python's `int()` for numeric group
names (signs, inner underscores, surrounding whitespace) are not
modelled; all concrete inputs below stay away from that corner.
-/

namespace Promptbox

/-- ASCII model of Python's `\w` character class: letters, digits, underscore. -/
def isWordChar (c : Char) : Bool := c.isAlpha || c.isDigit || c = '_'

/-- ASCII model of Python's `\s` character class. -/
def isSpaceChar (c : Char) : Bool :=
  c = ' ' || c = '\t' || c = '\n' || c = '\r' || c = '\x0b' || c = '\x0c'

/-- Attempt to match the regex `\[\[\s*(\w+)\s*\]\]` at the head of the list,
returning the captured identifier and the remainder of the input after the
match.  Since `\s`, `\w`, `]` are pairwise disjoint character classes, the
greedy backtracking semantics of the Python regex coincides with maximal
munch, which is what this function implements. -/
def tryMatch : List Char → Option (String × List Char)
  | c1 :: c2 :: rest =>
    if c1 = '[' ∧ c2 = '[' then
      let rest1 := rest.dropWhile isSpaceChar
      let b := rest1.takeWhile isWordChar
      let rest2 := (rest1.dropWhile isWordChar).dropWhile isSpaceChar
      if b ≠ [] ∧ rest2.take 2 = [']', ']'] then some (String.mk b, rest2.drop 2)
      else none
    else none
  | _ => none

/-- The left-to-right non-overlapping scan of `re.findall`, with fuel.
On a failed match the scan advances one character; on a successful match it
continues after the match. -/
def findAux : Nat → List Char → List String
  | 0, _ => []
  | _ + 1, [] => []
  | fuel + 1, c :: cs =>
    match tryMatch (c :: cs) with
    | some (v, rest) => v :: findAux fuel rest
    | none => findAux fuel cs

/-- All captured identifiers of `re.findall(r"\[\[\s*(\w+)\s*\]\]", ·)`, in
order of occurrence. -/
def findVarsL (l : List Char) : List String := findAux l.length l

/-- Strict lexicographic comparison of char lists by code point, i.e. how
Python compares strings. -/
def strLtB : List Char → List Char → Bool
  | [], [] => false
  | [], _ :: _ => true
  | _ :: _, [] => false
  | c :: cs, d :: ds => if c < d then true else if d < c then false else strLtB cs ds

/-- Membership test used by the deduplication pass. -/
def memStr (x : String) : List String → Bool
  | [] => false
  | y :: ys => if x = y then true else memStr x ys

/-- Deduplication (model of `list(set(xs))`; which duplicate survives is
irrelevant because the result is sorted afterwards). -/
def dedupStr : List String → List String
  | [] => []
  | x :: xs => if memStr x xs then dedupStr xs else x :: dedupStr xs

/-- Insertion into an ascending list. -/
def insertStr (x : String) : List String → List String
  | [] => [x]
  | y :: ys => if strLtB y.data x.data then y :: insertStr x ys else x :: y :: ys

/-- Insertion sort, ascending by code-point order (model of `sorted`). -/
def sortStrs : List String → List String
  | [] => []
  | x :: xs => insertStr x (sortStrs xs)

/-- Model of Python's `sorted(list(set(xs)))` for a list of strings. -/
def pySortedSet (l : List String) : List String :=
  sortStrs (dedupStr l)

/-- Embedding of `extract_variables` from `promptbox/utils/prompt_parser.py`:
empty input short-circuits to `[]`; otherwise the deduplicated, sorted list
of identifiers captured by `re.findall(r"\[\[\s*(\w+)\s*\]\]", text)`. -/
def extract_variables (text : String) : List String :=
  if text.isEmpty then [] else pySortedSet (findVarsL text.data)

/-! Replacement templates of `re.sub`.  A parsed template is a list of
items: literal chunks and references to group 0 (the whole match); the
pattern compiled by `substitute_variables` has no capture groups, so any
other group reference is an error. -/

/-- An item of a parsed `re.sub` replacement template. -/
inductive TItem where
  | lit : List Char → TItem
  | group0 : TItem

/-- Expand a parsed replacement template at a concrete match `m`
(`group0` expands to the whole matched text). -/
def expandT (items : List TItem) (m : List Char) : List Char :=
  (items.map (fun it => match it with | .lit s => s | .group0 => m)).flatten

/-- ASCII letters (the class whose unknown escapes `re` rejects). -/
def isAsciiLetter (c : Char) : Bool := ('a' ≤ c && c ≤ 'z') || ('A' ≤ c && c ≤ 'Z')

/-- Octal digit test. -/
def isOctChar (c : Char) : Bool := '0' ≤ c && c ≤ '7'

/-- Value of a list of octal digits. -/
def octVal (l : List Char) : Nat := l.foldl (fun n c => n * 8 + (c.toNat - '0'.toNat)) 0

/-- Value of a list of decimal digits. -/
def decVal (l : List Char) : Nat := l.foldl (fun n c => n * 10 + (c.toNat - '0'.toNat)) 0

/-- The standard escapes recognised in replacement templates
(`sre_parse.ESCAPES`). -/
def escChar (c : Char) : Option Char :=
  if c = 'a' then some (Char.ofNat 7)
  else if c = 'b' then some (Char.ofNat 8)
  else if c = 'f' then some (Char.ofNat 12)
  else if c = 'n' then some (Char.ofNat 10)
  else if c = 'r' then some (Char.ofNat 13)
  else if c = 't' then some (Char.ofNat 9)
  else if c = 'v' then some (Char.ofNat 11)
  else if c = '\\' then some '\\'
  else none

/-- ASCII model of `str.isidentifier`. -/
def isIdentStr (l : List Char) : Bool :=
  match l with
  | [] => false
  | c :: cs => (c.isAlpha || c = '_') && cs.all (fun d => d.isAlpha || d.isDigit || d = '_')

/-- Parser for `re.sub` replacement templates, faithful to
`sre_parse.parse_template` specialised to a pattern with zero capture
groups:  `\g<0>` (and `\g<00>` …) refers to the whole match, any other
group reference is an error, `\0` with up to two octal digits and
three-digit octal escapes produce characters, the `ESCAPES` table is
applied, unknown escapes of ASCII letters are errors, other unknown
escapes are kept verbatim, and a trailing lone backslash is an error.
Errors (Python `re.error`) are modelled as `none`. -/
def parseAux : Nat → List Char → Option (List TItem)
  | 0, _ => none
  | _ + 1, [] => some []
  | fuel + 1, '\\' :: rest =>
    match rest with
    | [] => none
    | 'g' :: rest1 =>
      match rest1 with
      | '<' :: rest2 =>
        let gname := rest2.takeWhile (fun c => !(c = '>'))
        match rest2.dropWhile (fun c => !(c = '>')) with
        | '>' :: rest3 =>
          if isIdentStr gname then none
          else if !gname.isEmpty && gname.all Char.isDigit then
            if decVal gname = 0 then (parseAux fuel rest3).map (fun ts => TItem.group0 :: ts)
            else none
          else none
        | _ => none
      | _ => none
    | c :: rest1 =>
      if c = '0' then
        match rest1 with
        | d1 :: rest2 =>
          if isOctChar d1 then
            match rest2 with
            | d2 :: rest3 =>
              if isOctChar d2 then
                (parseAux fuel rest3).map (fun ts => TItem.lit [Char.ofNat (octVal [c, d1, d2] % 256)] :: ts)
              else (parseAux fuel rest2).map (fun ts => TItem.lit [Char.ofNat (octVal [c, d1] % 256)] :: ts)
            | [] => (parseAux fuel rest2).map (fun ts => TItem.lit [Char.ofNat (octVal [c, d1] % 256)] :: ts)
          else (parseAux fuel rest1).map (fun ts => TItem.lit [Char.ofNat 0] :: ts)
        | [] => (parseAux fuel rest1).map (fun ts => TItem.lit [Char.ofNat 0] :: ts)
      else if c.isDigit then
        match rest1 with
        | d2 :: rest2 =>
          if d2.isDigit then
            if isOctChar c && isOctChar d2 then
              match rest2 with
              | d3 :: rest3 =>
                if isOctChar d3 then
                  if octVal [c, d2, d3] ≤ 255 then
                    (parseAux fuel rest3).map (fun ts => TItem.lit [Char.ofNat (octVal [c, d2, d3])] :: ts)
                  else none
                else none
              | [] => none
            else none
          else none
        | [] => none
      else
        match escChar c with
        | some e => (parseAux fuel rest1).map (fun ts => TItem.lit [e] :: ts)
        | none =>
          if isAsciiLetter c then none
          else (parseAux fuel rest1).map (fun ts => TItem.lit ['\\', c] :: ts)
  | fuel + 1, c :: rest => (parseAux fuel rest).map (fun ts => TItem.lit [c] :: ts)

/-- Parse a replacement template (adequate fuel supplied). -/
def parseTmpl (l : List Char) : Option (List TItem) := parseAux (l.length + 1) l

/-- Boolean list-head comparison: `leadEq a b` holds iff `a ++ t = b` for
some `t`. -/
def leadEq : List Char → List Char → Bool
  | [], _ => true
  | _ :: _, [] => false
  | a :: as, b :: bs => a = b && leadEq as bs

/-- Attempt, at offset `n` into the text following the two opening
brackets, to match `k` followed by `\s*\]\]`, returning the total length
matched after the opening brackets. -/
def checkAt (k rest : List Char) (n : Nat) : Option Nat :=
  if leadEq k (rest.drop n) then
    let after := (rest.drop n).drop k.length
    let m := (after.takeWhile isSpaceChar).length
    if (after.drop m).take 2 = [']', ']'] then some (n + k.length + m + 2) else none
  else none

/-- Greedy backtracking over the leading `\s*`: try the longest run of
spaces first, as the Python regex engine does. -/
def tryTail (k rest : List Char) : Nat → Option Nat
  | 0 => checkAt k rest 0
  | n + 1 =>
    match checkAt k rest (n + 1) with
    | some len => some len
    | none => tryTail k rest n

/-- Attempt to match the regex `\[\[\s*K\s*\]\]` (for the literal,
`re.escape`d key `K = k`) at the head of the list, returning the length of
the match. -/
def tryKeyAt (k : List Char) : List Char → Option Nat
  | c1 :: c2 :: rest =>
    if c1 = '[' ∧ c2 = '[' then
      match tryTail k rest ((rest.takeWhile isSpaceChar).length) with
      | some len => some (len + 2)
      | none => none
    else none
  | _ => none

/-- The left-to-right non-overlapping scan of `re.sub` for one key:
each match is replaced by the expanded replacement template and the scan
continues after the match (the inserted text is not re-scanned by this
same pass). -/
def subAux (k : List Char) (items : List TItem) : Nat → List Char → List Char
  | 0, l => l
  | _ + 1, [] => []
  | fuel + 1, c :: cs =>
    match tryKeyAt k (c :: cs) with
    | some len =>
      expandT items ((c :: cs).take len) ++ subAux k items fuel ((c :: cs).drop len)
    | none => c :: subAux k items fuel cs

/-- One full `re.sub` pass over `l` for key `k` (adequate fuel supplied). -/
def subScanL (k : List Char) (items : List TItem) (l : List Char) : List Char :=
  subAux k items l.length l

/-- One loop iteration of `substitute_variables`:
`re.sub(r"\[\[\s*" + re.escape(k) + r"\s*\]\]", v, text)`.  CPython uses
`v` literally iff it contains no backslash; otherwise it parses `v` as a
replacement template — and raises (`none`) on a malformed template even
when the pattern never matches. -/
def substOne (k v : String) (l : List Char) : Option (List Char) :=
  if v.data.contains '\\' then
    match parseTmpl v.data with
    | some items => some (subScanL k.data items l)
    | none => none
  else some (subScanL k.data [TItem.lit v.data] l)

/-- The `for var_name, var_value in context.items()` loop of
`substitute_variables`; the association list carries the dict's insertion
order. -/
def substLoop : List (String × String) → List Char → Option (List Char)
  | [], l => some l
  | (k, v) :: rest, l =>
    match substOne k v l with
    | some l2 => substLoop rest l2
    | none => none

/-- Embedding of `substitute_variables` from
`promptbox/utils/prompt_parser.py`.  A Python dict in insertion order is
modelled as an association list; a raised `re.error` is modelled as
`none`. -/
def substitute_variables (text : String) (context : List (String × String)) : Option String :=
  if text.isEmpty || context.isEmpty then some text
  else (substLoop context text.data).map String.mk

/-! Order and permutation facts about `strLtB`, `dedupStr`, `sortStrs`. -/

/-- Strict code-point order on strings, via their character data. -/
def strLt (a b : String) : Prop := strLtB a.data b.data = true

theorem String.data_eq (a b : String) (h : a.data = b.data) : a = b := by
  cases a; cases b; exact congrArg String.mk h

theorem char_eq_of_not_lt {c d : Char} (h1 : ¬ c < d) (h2 : ¬ d < c) : c = d :=
  le_antisymm (not_lt.mp h2) (not_lt.mp h1)

theorem strLtB_nil_right : ∀ l : List Char, strLtB l [] = false
  | [] => rfl
  | _ :: _ => rfl

theorem strLtB_irrefl : ∀ l : List Char, strLtB l l = false
  | [] => rfl
  | c :: cs => by simp [strLtB, lt_irrefl, strLtB_irrefl cs]

theorem strLtB_cons_iff {c d : Char} {cs ds : List Char} :
    strLtB (c :: cs) (d :: ds) = true ↔
      c < d ∨ (¬ c < d ∧ ¬ d < c ∧ strLtB cs ds = true) := by
  rw [strLtB]
  split_ifs with h1 h2
  · simp [h1]
  · simp [h1, h2]
  · simp [h1, h2]

theorem strLtB_trans : ∀ {a b c : List Char},
    strLtB a b = true → strLtB b c = true → strLtB a c = true := by
  intro a
  induction a with
  | nil =>
    intro b c h1 h2
    cases c with
    | nil =>
      cases b with
      | nil => exact h1
      | cons d ds => simp [strLtB_nil_right] at h2
    | cons e es => rfl
  | cons x xs ih =>
    intro b c h1 h2
    cases b with
    | nil => simp [strLtB_nil_right] at h1
    | cons y ys =>
      cases c with
      | nil => simp [strLtB_nil_right] at h2
      | cons z zs =>
        rw [strLtB_cons_iff] at h1 h2 ⊢
        rcases h1 with hxy | ⟨hxy1, hxy2, hrec1⟩
        · rcases h2 with hyz | ⟨hyz1, hyz2, _⟩
          · exact Or.inl (lt_trans hxy hyz)
          · rw [char_eq_of_not_lt hyz1 hyz2] at hxy
            exact Or.inl hxy
        · rcases h2 with hyz | ⟨hyz1, hyz2, hrec2⟩
          · rw [char_eq_of_not_lt hxy1 hxy2]
            exact Or.inl hyz
          · rw [char_eq_of_not_lt hxy1 hxy2, char_eq_of_not_lt hyz1 hyz2]
            have := ih hrec1 hrec2
            simp [lt_irrefl, this]

theorem strLtB_asymm {a b : List Char} (h : strLtB a b = true) : strLtB b a = false := by
  by_contra hc
  have hb : strLtB b a = true := by
    cases hba : strLtB b a with
    | false => exact absurd hba hc
    | true => rfl
  have : strLtB a a = true := strLtB_trans h hb
  simp [strLtB_irrefl] at this

theorem strLtB_eq_of_both_false : ∀ {a b : List Char},
    strLtB a b = false → strLtB b a = false → a = b
  | [], [], _, _ => rfl
  | [], _ :: _, h1, _ => by simp [strLtB] at h1
  | _ :: _, [], _, h2 => by simp [strLtB] at h2
  | c :: cs, d :: ds, h1, h2 => by
    have h1' : ¬ (strLtB (c :: cs) (d :: ds) = true) := by simp [h1]
    have h2' : ¬ (strLtB (d :: ds) (c :: cs) = true) := by simp [h2]
    rw [strLtB_cons_iff] at h1' h2'
    have hcd : ¬ c < d := fun h => h1' (Or.inl h)
    have hdc : ¬ d < c := fun h => h2' (Or.inl h)
    have hce : c = d := char_eq_of_not_lt hcd hdc
    subst hce
    have hr1 : strLtB cs ds = false := by
      cases hx : strLtB cs ds with
      | false => rfl
      | true => exact absurd (Or.inr ⟨hcd, hdc, hx⟩) h1'
    have hr2 : strLtB ds cs = false := by
      cases hx : strLtB ds cs with
      | false => rfl
      | true => exact absurd (Or.inr ⟨hdc, hcd, hx⟩) h2'
    rw [strLtB_eq_of_both_false hr1 hr2]

theorem strLtB_false_trans {a b c : List Char}
    (h1 : strLtB a b = false) (h2 : strLtB b c = false) : strLtB a c = false := by
  cases hac : strLtB a c with
  | false => rfl
  | true =>
    exfalso
    cases hba : strLtB b a with
    | true => exact absurd (strLtB_trans hba hac) (by simp [h2])
    | false =>
      have : a = b := strLtB_eq_of_both_false h1 hba
      subst this
      simp [hac] at h2

theorem memStr_iff (x : String) : ∀ l, memStr x l = true ↔ x ∈ l
  | [] => by simp [memStr]
  | y :: ys => by
    by_cases h : x = y
    · subst h; simp [memStr]
    · simp [memStr, h, memStr_iff x ys]

theorem mem_dedupStr (x : String) : ∀ l, x ∈ dedupStr l ↔ x ∈ l
  | [] => Iff.rfl
  | y :: ys => by
    by_cases h : memStr y ys = true
    · have hy : y ∈ ys := (memStr_iff y ys).mp h
      simp only [dedupStr, if_pos h, mem_dedupStr x ys, List.mem_cons]
      constructor
      · exact Or.inr
      · rintro (rfl | hx)
        · exact hy
        · exact hx
    · simp only [dedupStr, if_neg h, List.mem_cons, mem_dedupStr x ys]

theorem nodup_dedupStr : ∀ l, (dedupStr l).Nodup
  | [] => List.nodup_nil
  | y :: ys => by
    by_cases h : memStr y ys = true
    · simpa [dedupStr, if_pos h] using nodup_dedupStr ys
    · have hy : y ∉ dedupStr ys := by
        rw [mem_dedupStr]
        intro hmem
        exact h ((memStr_iff y ys).mpr hmem)
      simpa [dedupStr, if_neg h, List.nodup_cons, hy] using nodup_dedupStr ys

theorem mem_insertStr (x y : String) : ∀ l, y ∈ insertStr x l ↔ y = x ∨ y ∈ l
  | [] => by simp [insertStr]
  | z :: zs => by
    by_cases h : strLtB z.data x.data = true
    · simp only [insertStr, if_pos h, List.mem_cons, mem_insertStr x y zs]
      tauto
    · simp only [insertStr, if_neg h, List.mem_cons]

theorem mem_sortStrs (y : String) : ∀ l, y ∈ sortStrs l ↔ y ∈ l
  | [] => Iff.rfl
  | x :: xs => by
    simp [sortStrs, mem_insertStr, mem_sortStrs y xs]

/-- Sortedness invariant: each element is not greater than any later one. -/
def strLeP (a b : String) : Prop := strLtB b.data a.data = false

theorem pairwise_insertStr {x : String} : ∀ {l}, List.Pairwise strLeP l →
    List.Pairwise strLeP (insertStr x l)
  | [], _ => by simp [insertStr, List.pairwise_cons]
  | z :: zs, h => by
    rcases List.pairwise_cons.mp h with ⟨hz, hzs⟩
    by_cases hlt : strLtB z.data x.data = true
    · rw [insertStr, if_pos hlt]
      refine List.pairwise_cons.mpr ⟨?_, pairwise_insertStr hzs⟩
      intro w hw
      rcases (mem_insertStr x w zs).mp hw with rfl | hw2
      · exact strLtB_asymm hlt
      · exact hz w hw2
    · rw [insertStr, if_neg hlt]
      have hltf : strLtB z.data x.data = false := by
        cases hx : strLtB z.data x.data with
        | false => rfl
        | true => exact absurd hx hlt
      refine List.pairwise_cons.mpr ⟨?_, h⟩
      intro w hw
      rcases List.mem_cons.mp hw with rfl | hw2
      · exact hltf
      · exact strLtB_false_trans (hz w hw2) hltf

theorem pairwise_sortStrs : ∀ l, List.Pairwise strLeP (sortStrs l)
  | [] => List.Pairwise.nil
  | _ :: xs => pairwise_insertStr (pairwise_sortStrs xs)

theorem nodup_insertStr {x : String} : ∀ {l}, x ∉ l → l.Nodup → (insertStr x l).Nodup
  | [], _, _ => by simp [insertStr]
  | z :: zs, hx, h => by
    rcases List.nodup_cons.mp h with ⟨hz, hzs⟩
    by_cases hlt : strLtB z.data x.data = true
    · rw [insertStr, if_pos hlt]
      refine List.nodup_cons.mpr ⟨?_, nodup_insertStr (fun hm => hx (List.mem_cons_of_mem _ hm)) hzs⟩
      rw [mem_insertStr]
      rintro (rfl | hm)
      · exact hx (List.mem_cons_self _ _)
      · exact hz hm
    · rw [insertStr, if_neg hlt]
      exact List.nodup_cons.mpr ⟨hx, h⟩

theorem nodup_sortStrs : ∀ {l}, l.Nodup → (sortStrs l).Nodup
  | [], _ => List.nodup_nil
  | x :: xs, h => by
    rcases List.nodup_cons.mp h with ⟨hx, hxs⟩
    exact nodup_insertStr (fun hm => hx ((mem_sortStrs x xs).mp hm)) (nodup_sortStrs hxs)

theorem mem_pySortedSet (y : String) (l : List String) : y ∈ pySortedSet l ↔ y ∈ l := by
  rw [pySortedSet, mem_sortStrs, mem_dedupStr]

theorem nodup_pySortedSet (l : List String) : (pySortedSet l).Nodup :=
  nodup_sortStrs (nodup_dedupStr l)

/-- The output of `pySortedSet` is strictly ascending in code-point order. -/
theorem pairwise_strLt_pySortedSet (l : List String) :
    List.Pairwise strLt (pySortedSet l) := by
  have hs := pairwise_sortStrs (dedupStr l)
  have hn := nodup_pySortedSet l
  rw [pySortedSet] at hn ⊢
  have := List.Pairwise.and hs hn
  refine this.imp ?_
  rintro a b ⟨hle, hne⟩
  show strLtB a.data b.data = true
  by_contra hc
  have hab : strLtB a.data b.data = false := by
    cases hx : strLtB a.data b.data with
    | false => rfl
    | true => exact absurd hx hc
  exact hne (String.data_eq a b (strLtB_eq_of_both_false hab hle))

theorem pySortedSet_nil_iff (l : List String) : pySortedSet l = [] ↔ l = [] := by
  constructor
  · intro h
    cases l with
    | nil => rfl
    | cons x xs =>
      have : x ∈ pySortedSet (x :: xs) := (mem_pySortedSet _ _).mpr (List.mem_cons_self _ _)
      simp [h] at this
  · rintro rfl; rfl

/-! Character class facts. -/

theorem space_char_cases {c : Char} (h : isSpaceChar c = true) :
    c = ' ' ∨ c = '\t' ∨ c = '\n' ∨ c = '\r' ∨ c = '\x0b' ∨ c = '\x0c' := by
  have h2 := h
  simp only [isSpaceChar, Bool.or_eq_true, decide_eq_true_eq] at h2
  tauto

theorem word_not_space {c : Char} (h : isWordChar c = true) : isSpaceChar c = false := by
  cases hs : isSpaceChar c with
  | false => rfl
  | true =>
    exfalso
    rcases space_char_cases hs with rfl | rfl | rfl | rfl | rfl | rfl <;> exact absurd h (by decide)

theorem space_not_word {c : Char} (h : isSpaceChar c = true) : isWordChar c = false := by
  cases hw : isWordChar c with
  | false => rfl
  | true => simp [word_not_space hw] at h

theorem word_ne_lb {c : Char} (h : isWordChar c = true) : c ≠ '[' := by
  rintro rfl; exact absurd h (by decide)

theorem word_ne_rb {c : Char} (h : isWordChar c = true) : c ≠ ']' := by
  rintro rfl; exact absurd h (by decide)

theorem space_ne_lb {c : Char} (h : isSpaceChar c = true) : c ≠ '[' := by
  rintro rfl; exact absurd h (by decide)

theorem space_ne_rb {c : Char} (h : isSpaceChar c = true) : c ≠ ']' := by
  rintro rfl; exact absurd h (by decide)

/-! takeWhile / dropWhile helpers. -/

theorem takeWhile_cons_false {p : Char → Bool} {c : Char} {l : List Char} (h : p c = false) :
    (c :: l).takeWhile p = [] := by
  simp [List.takeWhile_cons, h]

theorem dropWhile_cons_false {p : Char → Bool} {c : Char} {l : List Char} (h : p c = false) :
    (c :: l).dropWhile p = c :: l := by
  simp [List.dropWhile_cons, h]

theorem takeWhile_eq_of {p : Char → Bool} : ∀ {xs ys : List Char},
    (∀ c ∈ xs, p c = true) → (∀ c t, ys = c :: t → p c = false) →
    (xs ++ ys).takeWhile p = xs
  | [], ys, _, hys => by
    cases ys with
    | nil => rfl
    | cons c t =>
      rw [List.nil_append]
      exact takeWhile_cons_false (hys c t rfl)
  | x :: xs, ys, hxs, hys => by
    rw [List.cons_append, List.takeWhile_cons, if_pos (hxs x (List.mem_cons_self x xs))]
    rw [takeWhile_eq_of (fun c hc => hxs c (List.mem_cons_of_mem x hc)) hys]

theorem dropWhile_eq_of {p : Char → Bool} : ∀ {xs ys : List Char},
    (∀ c ∈ xs, p c = true) → (∀ c t, ys = c :: t → p c = false) →
    (xs ++ ys).dropWhile p = ys
  | [], ys, _, hys => by
    cases ys with
    | nil => rfl
    | cons c t =>
      rw [List.nil_append]
      exact dropWhile_cons_false (hys c t rfl)
  | x :: xs, ys, hxs, hys => by
    rw [List.cons_append, List.dropWhile_cons, if_pos (hxs x (List.mem_cons_self x xs))]
    exact dropWhile_eq_of (fun c hc => hxs c (List.mem_cons_of_mem x hc)) hys

theorem append_split_of_le {α : Type} : ∀ {u x v y : List α},
    u ++ v = x ++ y → u.length ≤ x.length → ∃ m, x = u ++ m ∧ v = m ++ y
  | [], x, v, y, h, _ => ⟨x, rfl, h⟩
  | c :: u, x, v, y, h, hle => by
    cases x with
    | nil => simp at hle
    | cons d x2 =>
      rw [List.cons_append, List.cons_append, List.cons.injEq] at h
      obtain ⟨m, hm1, hm2⟩ := append_split_of_le h.2 (by simpa using hle)
      exact ⟨m, by rw [List.cons_append, h.1, hm1], hm2⟩

/-! Behaviour of the extraction scanner `tryMatch` / `findVarsL`. -/

theorem tryMatch_head_ne {c : Char} {cs : List Char} (h : c ≠ '[') :
    tryMatch (c :: cs) = none := by
  cases cs with
  | nil => rfl
  | cons c2 cs2 =>
    simp only [tryMatch]
    rw [if_neg]
    rintro ⟨h1, _⟩
    exact h h1

theorem tryMatch_second_ne {c : Char} {cs : List Char} (h : c ≠ '[') :
    tryMatch ('[' :: c :: cs) = none := by
  simp only [tryMatch]
  rw [if_neg]
  rintro ⟨_, h2⟩
  exact h h2

theorem take_two_eq {l : List Char} (h : l.take 2 = [']', ']']) :
    l = ']' :: ']' :: l.drop 2 := by
  match l with
  | [] => simp at h
  | [x] => simp at h
  | x :: y :: t =>
    have h2 : [x, y] = [']', ']'] := h
    simp only [List.cons.injEq, and_true] at h2
    rcases h2 with ⟨rfl, rfl⟩
    rfl

theorem word_head_not_space {b X : List Char} (hb : ∀ c ∈ b, isWordChar c = true)
    (hbne : b ≠ []) : ∀ c t, b ++ X = c :: t → isSpaceChar c = false := by
  cases b with
  | nil => exact absurd rfl hbne
  | cons cb b2 =>
    intro c t h
    rw [List.cons_append, List.cons.injEq] at h
    rw [← h.1]
    exact word_not_space (hb cb (List.mem_cons_self cb b2))

theorem space_or_rb_head_not_word {w2 t0 : List Char} (hw2 : ∀ c ∈ w2, isSpaceChar c = true) :
    ∀ c t, w2 ++ ']' :: t0 = c :: t → isWordChar c = false := by
  cases w2 with
  | nil =>
    intro c t h
    rw [List.nil_append, List.cons.injEq] at h
    rw [← h.1]
    decide
  | cons cw w2b =>
    intro c t h
    rw [List.cons_append, List.cons.injEq] at h
    rw [← h.1]
    exact space_not_word (hw2 cw (List.mem_cons_self cw w2b))

theorem rb_head_not_space {t0 : List Char} :
    ∀ c t, (']' :: t0 : List Char) = c :: t → isSpaceChar c = false := by
  intro c t h
  rw [List.cons.injEq] at h
  rw [← h.1]
  decide

/-- Successful scan of a well-formed placeholder occurrence at the head of
the input: the regex consumes exactly the placeholder and captures its
identifier. -/
theorem tryMatch_span {w1 b w2 r : List Char}
    (hw1 : ∀ c ∈ w1, isSpaceChar c = true) (hb : ∀ c ∈ b, isWordChar c = true)
    (hbne : b ≠ []) (hw2 : ∀ c ∈ w2, isSpaceChar c = true) :
    tryMatch ('[' :: '[' :: (w1 ++ (b ++ (w2 ++ ']' :: ']' :: r)))) = some (String.mk b, r) := by
  have hd1 : (w1 ++ (b ++ (w2 ++ ']' :: ']' :: r))).dropWhile isSpaceChar =
      b ++ (w2 ++ ']' :: ']' :: r) :=
    dropWhile_eq_of hw1 (word_head_not_space hb hbne)
  have ht1 : (b ++ (w2 ++ ']' :: ']' :: r)).takeWhile isWordChar = b :=
    takeWhile_eq_of hb (space_or_rb_head_not_word hw2)
  have hd2 : (b ++ (w2 ++ ']' :: ']' :: r)).dropWhile isWordChar = w2 ++ ']' :: ']' :: r :=
    dropWhile_eq_of hb (space_or_rb_head_not_word hw2)
  have hd3 : (w2 ++ ']' :: ']' :: r).dropWhile isSpaceChar = ']' :: ']' :: r :=
    dropWhile_eq_of hw2 rb_head_not_space
  simp [tryMatch, hd1, ht1, hd2, hd3, hbne]

/-- Inversion of a successful `tryMatch`: the input starts with a
well-formed placeholder whose identifier is the captured variable. -/
theorem tryMatch_inv {l r : List Char} {v : String} (h : tryMatch l = some (v, r)) :
    ∃ w1 b w2, l = '[' :: '[' :: (w1 ++ (b ++ (w2 ++ ']' :: ']' :: r))) ∧
      (∀ c ∈ w1, isSpaceChar c = true) ∧ (∀ c ∈ b, isWordChar c = true) ∧ b ≠ [] ∧
      (∀ c ∈ w2, isSpaceChar c = true) ∧ v = String.mk b := by
  match l with
  | [] => exact absurd h (by simp [tryMatch])
  | [c] => exact absurd h (by simp [tryMatch])
  | c1 :: c2 :: rest =>
    simp only [tryMatch] at h
    split at h
    · rename_i hc
      split at h
      · rename_i hcond
        obtain ⟨rfl, rfl⟩ := hc
        rw [Option.some.injEq, Prod.mk.injEq] at h
        set W1 := rest.takeWhile isSpaceChar with hW1
        set R1 := rest.dropWhile isSpaceChar with hR1
        set B := R1.takeWhile isWordChar with hB
        set R2 := R1.dropWhile isWordChar with hR2
        set W2 := R2.takeWhile isSpaceChar with hW2
        set R3 := R2.dropWhile isSpaceChar with hR3
        have hrest : rest = W1 ++ R1 := (List.takeWhile_append_dropWhile ..).symm
        have hR1eq : R1 = B ++ R2 := (List.takeWhile_append_dropWhile ..).symm
        have hR2eq : R2 = W2 ++ R3 := (List.takeWhile_append_dropWhile ..).symm
        have hR3eq : R3 = ']' :: ']' :: R3.drop 2 := take_two_eq hcond.2
        refine ⟨W1, B, W2, ?_, ?_, ?_, hcond.1, ?_, h.1.symm⟩
        · rw [hrest, hR1eq, hR2eq, hR3eq, ← h.2]
        · intro c hc2
          exact List.mem_takeWhile_imp hc2
        · intro c hc2
          exact List.mem_takeWhile_imp (hB ▸ hc2)
        · intro c hc2
          exact List.mem_takeWhile_imp hc2
      · exact absurd h (by simp)
    · exact absurd h (by simp)

theorem tryMatch_rest_length {l r : List Char} {v : String} (h : tryMatch l = some (v, r)) :
    r.length < l.length := by
  obtain ⟨w1, b, w2, rfl, -, -, -, -, -⟩ := tryMatch_inv h
  simp [List.length_append]
  omega

theorem findAux_congr : ∀ (f1 f2 : Nat) (l : List Char),
    l.length ≤ f1 → l.length ≤ f2 → findAux f1 l = findAux f2 l := by
  intro f1
  induction f1 with
  | zero =>
    intro f2 l h1 _
    have : l = [] := List.eq_nil_of_length_eq_zero (Nat.le_zero.mp h1)
    subst this
    cases f2 <;> rfl
  | succ f ih =>
    intro f2 l h1 h2
    cases l with
    | nil => cases f2 <;> rfl
    | cons c cs =>
      cases f2 with
      | zero => simp at h2
      | succ g =>
        cases h : tryMatch (c :: cs) with
        | none =>
          simp only [findAux, h]
          exact ih g cs (Nat.le_of_succ_le_succ h1) (Nat.le_of_succ_le_succ h2)
        | some p =>
          obtain ⟨v, r⟩ := p
          have hlen := tryMatch_rest_length h
          simp only [List.length_cons] at h1 h2 hlen
          simp only [findAux, h]
          rw [ih g r (by omega) (by omega)]

theorem findVarsL_cons_some {c : Char} {cs r : List Char} {v : String}
    (h : tryMatch (c :: cs) = some (v, r)) : findVarsL (c :: cs) = v :: findVarsL r := by
  have hlen := tryMatch_rest_length h
  simp only [List.length_cons] at hlen
  unfold findVarsL
  rw [show (c :: cs).length = cs.length + 1 from rfl]
  simp only [findAux, h]
  rw [findAux_congr cs.length r.length r (by omega) (le_refl _)]

theorem findVarsL_cons_none {c : Char} {cs : List Char}
    (h : tryMatch (c :: cs) = none) : findVarsL (c :: cs) = findVarsL cs := by
  unfold findVarsL
  rw [show (c :: cs).length = cs.length + 1 from rfl]
  simp only [findAux, h]

theorem findVarsL_append_nolb : ∀ {a rest : List Char},
    (∀ c ∈ a, c ≠ '[') → findVarsL (a ++ rest) = findVarsL rest
  | [], _, _ => rfl
  | c :: a2, rest, h => by
    rw [List.cons_append,
      findVarsL_cons_none (tryMatch_head_ne (h c (List.mem_cons_self c a2))),
      findVarsL_append_nolb (fun d hd => h d (List.mem_cons_of_mem c hd))]

/-! Span geometry: a successful match of either scanner is a
`[[·]]`-shaped span whose interior contains no opening bracket, so a match
can never begin strictly before a well-formed placeholder occurrence and
swallow part of it. -/

theorem no_lb_reach : ∀ (body a2 r2 restM : List Char), ('[' ∉ body) →
    body ++ restM = a2 ++ '[' :: r2 → body.length ≤ a2.length := by
  intro body
  induction body with
  | nil => simp
  | cons c bs ih =>
    intro a2 r2 restM hnb heq
    cases a2 with
    | nil =>
      rw [List.nil_append] at heq
      rw [List.cons_append, List.cons.injEq] at heq
      exact absurd (heq.1 ▸ List.mem_cons_self c bs) (heq.1 ▸ hnb)
    | cons x a2b =>
      rw [List.cons_append, List.cons_append, List.cons.injEq] at heq
      simpa using Nat.succ_le_succ (ih a2b r2 restM
        (fun hm => hnb (List.mem_cons_of_mem c hm)) heq.2)

theorem span_body_no_lb {s1 w s2 : List Char}
    (hs1 : ∀ c ∈ s1, isSpaceChar c = true) (hw : ∀ c ∈ w, isWordChar c = true)
    (hs2 : ∀ c ∈ s2, isSpaceChar c = true) :
    '[' ∉ s1 ++ (w ++ (s2 ++ [']', ']'])) := by
  intro hm
  rcases List.mem_append.mp hm with h1 | hrest
  · exact space_ne_lb (hs1 _ h1) rfl
  rcases List.mem_append.mp hrest with h2 | hrest2
  · exact word_ne_lb (hw _ h2) rfl
  rcases List.mem_append.mp hrest2 with h3 | h4
  · exact space_ne_lb (hs2 _ h3) rfl
  · simp at h4

/-- The unique space*-word+-space* parse of the interior of a bracket pair:
two decompositions of the same character list must agree. -/
theorem sw_parse_unique {s1 w s2 restM w1 b w2 r : List Char}
    (hs1 : ∀ c ∈ s1, isSpaceChar c = true) (hw : ∀ c ∈ w, isWordChar c = true)
    (hwne : w ≠ []) (hs2 : ∀ c ∈ s2, isSpaceChar c = true)
    (hb1 : ∀ c ∈ w1, isSpaceChar c = true) (hbw : ∀ c ∈ b, isWordChar c = true)
    (hbne : b ≠ []) (hb2 : ∀ c ∈ w2, isSpaceChar c = true)
    (heq : s1 ++ (w ++ (s2 ++ ']' :: ']' :: restM)) = w1 ++ (b ++ (w2 ++ ']' :: ']' :: r))) :
    s1 = w1 ∧ w = b ∧ s2 = w2 ∧ restM = r := by
  have htw1 : (s1 ++ (w ++ (s2 ++ ']' :: ']' :: restM))).takeWhile isSpaceChar = s1 :=
    takeWhile_eq_of hs1 (word_head_not_space hw hwne)
  have htw2 : (w1 ++ (b ++ (w2 ++ ']' :: ']' :: r))).takeWhile isSpaceChar = w1 :=
    takeWhile_eq_of hb1 (word_head_not_space hbw hbne)
  have hse : s1 = w1 := by rw [← htw1, ← htw2, heq]
  subst hse
  have heq2 : w ++ (s2 ++ ']' :: ']' :: restM) = b ++ (w2 ++ ']' :: ']' :: r) :=
    List.append_cancel_left heq
  have hww1 : (w ++ (s2 ++ ']' :: ']' :: restM)).takeWhile isWordChar = w :=
    takeWhile_eq_of hw (space_or_rb_head_not_word hs2)
  have hww2 : (b ++ (w2 ++ ']' :: ']' :: r)).takeWhile isWordChar = b :=
    takeWhile_eq_of hbw (space_or_rb_head_not_word hb2)
  have hwe : w = b := by rw [← hww1, ← hww2, heq2]
  subst hwe
  have heq3 : s2 ++ ']' :: ']' :: restM = w2 ++ ']' :: ']' :: r :=
    List.append_cancel_left heq2
  have hsw1 : (s2 ++ ']' :: ']' :: restM).takeWhile isSpaceChar = s2 :=
    takeWhile_eq_of hs2 rb_head_not_space
  have hsw2 : (w2 ++ ']' :: ']' :: r).takeWhile isSpaceChar = w2 :=
    takeWhile_eq_of hb2 rb_head_not_space
  have hs2e : s2 = w2 := by rw [← hsw1, ← hsw2, heq3]
  subst hs2e
  have heq4 : ']' :: ']' :: restM = ']' :: ']' :: r := List.append_cancel_left heq3
  simp only [List.cons.injEq, true_and] at heq4
  exact ⟨rfl, rfl, rfl, heq4⟩

/-- Where a `[[ s1 w s2 ]]`-shaped span can sit inside `a ++ [[ w1 b w2 ]] ++ r`:
either strictly inside `a` (and then `a` begins with the whole span), or
exactly at the placeholder (and then the two parses agree). -/
theorem span_split {s1 w s2 restM a w1 b w2 r : List Char}
    (hs1 : ∀ c ∈ s1, isSpaceChar c = true) (hw : ∀ c ∈ w, isWordChar c = true)
    (hwne : w ≠ []) (hs2 : ∀ c ∈ s2, isSpaceChar c = true)
    (hb1 : ∀ c ∈ w1, isSpaceChar c = true) (hbw : ∀ c ∈ b, isWordChar c = true)
    (hbne : b ≠ []) (hb2 : ∀ c ∈ w2, isSpaceChar c = true)
    (heq : '[' :: '[' :: (s1 ++ (w ++ (s2 ++ ']' :: ']' :: restM))) =
      a ++ '[' :: '[' :: (w1 ++ (b ++ (w2 ++ ']' :: ']' :: r)))) :
    (∃ a2, a = '[' :: '[' :: (s1 ++ (w ++ (s2 ++ ']' :: ']' :: a2))) ∧
      restM = a2 ++ '[' :: '[' :: (w1 ++ (b ++ (w2 ++ ']' :: ']' :: r)))) ∨
    (a = [] ∧ s1 = w1 ∧ w = b ∧ s2 = w2 ∧ restM = r) := by
  cases a with
  | nil =>
    rw [List.nil_append] at heq
    simp only [List.cons.injEq, true_and] at heq
    exact Or.inr ⟨rfl, sw_parse_unique hs1 hw hwne hs2 hb1 hbw hbne hb2 heq⟩
  | cons x a1 =>
    rw [List.cons_append, List.cons.injEq] at heq
    obtain ⟨hx, heq⟩ := heq
    subst hx
    cases a1 with
    | nil =>
      exfalso
      rw [List.nil_append, List.cons.injEq] at heq
      have heq2 := heq.2
      cases hs : s1 with
      | nil =>
        rw [hs] at heq2
        cases hwc : w with
        | nil => exact hwne hwc
        | cons cw wr =>
          rw [hwc] at heq2
          simp only [List.nil_append, List.cons_append, List.cons.injEq] at heq2
          exact word_ne_lb (hw cw (hwc ▸ List.mem_cons_self cw wr)) heq2.1
      | cons cs1 s1r =>
        rw [hs] at heq2
        simp only [List.cons_append, List.cons.injEq] at heq2
        exact space_ne_lb (hs1 cs1 (hs ▸ List.mem_cons_self cs1 s1r)) heq2.1
    | cons y a2 =>
      rw [List.cons_append, List.cons.injEq] at heq
      obtain ⟨hy, heq⟩ := heq
      subst hy
      have hbody : (s1 ++ (w ++ (s2 ++ [']', ']']))) ++ restM = a2 ++ '[' :: ('[' ::
          (w1 ++ (b ++ (w2 ++ ']' :: ']' :: r)))) := by
        rw [← heq]
        simp [List.append_assoc]
      have hlen : (s1 ++ (w ++ (s2 ++ [']', ']']))).length ≤ a2.length :=
        no_lb_reach _ a2 _ restM (span_body_no_lb hs1 hw hs2) hbody
      obtain ⟨m, hm1, hm2⟩ := append_split_of_le hbody hlen
      refine Or.inl ⟨m, ?_, hm2⟩
      rw [hm1]
      simp [List.append_assoc]

/-- Declarative reading of the pattern `\[\[\s*(\w+)\s*\]\]`: the input
contains a well-formed placeholder occurrence somewhere. -/
def HasVar (l : List Char) : Prop :=
  ∃ a w1 b w2 r, l = a ++ '[' :: '[' :: (w1 ++ (b ++ (w2 ++ ']' :: ']' :: r))) ∧
    (∀ c ∈ w1, isSpaceChar c = true) ∧ (∀ c ∈ b, isWordChar c = true) ∧ b ≠ [] ∧
    (∀ c ∈ w2, isSpaceChar c = true)

theorem findVarsL_sound_aux (v : String) : ∀ (n : Nat) (l : List Char), l.length ≤ n →
    v ∈ findVarsL l →
    ∃ a w1 b w2 r, l = a ++ '[' :: '[' :: (w1 ++ (b ++ (w2 ++ ']' :: ']' :: r))) ∧
      (∀ c ∈ w1, isSpaceChar c = true) ∧ (∀ c ∈ b, isWordChar c = true) ∧ b ≠ [] ∧
      (∀ c ∈ w2, isSpaceChar c = true) ∧ v = String.mk b := by
  intro n
  induction n with
  | zero =>
    intro l hlen hv
    have : l = [] := List.eq_nil_of_length_eq_zero (Nat.le_zero.mp hlen)
    subst this
    simp [findVarsL, findAux] at hv
  | succ n ih =>
    intro l hlen hv
    cases l with
    | nil => simp [findVarsL, findAux] at hv
    | cons c cs =>
      cases h : tryMatch (c :: cs) with
      | none =>
        rw [findVarsL_cons_none h] at hv
        obtain ⟨a, w1, b, w2, r, hcs, h1, h2, h3, h4, h5⟩ :=
          ih cs (by simpa using Nat.le_of_succ_le_succ hlen) hv
        exact ⟨c :: a, w1, b, w2, r, by rw [List.cons_append, hcs], h1, h2, h3, h4, h5⟩
      | some p =>
        obtain ⟨u, r⟩ := p
        rw [findVarsL_cons_some h] at hv
        rcases List.mem_cons.mp hv with rfl | hv2
        · obtain ⟨w1, b, w2, hl, h1, h2, h3, h4, h5⟩ := tryMatch_inv h
          exact ⟨[], w1, b, w2, r, by rw [List.nil_append, hl], h1, h2, h3, h4, h5⟩
        · have hrlen : r.length ≤ n := by
            have := tryMatch_rest_length h
            simp only [List.length_cons] at this hlen
            omega
          obtain ⟨a, w1, b, w2, r2, hr, h1, h2, h3, h4, h5⟩ := ih r hrlen hv2
          obtain ⟨s1, sw, s2, hl, g1, g2, g3, g4, -⟩ := tryMatch_inv h
          refine ⟨'[' :: '[' :: (s1 ++ (sw ++ (s2 ++ (']' :: ']' :: a)))), w1, b, w2, r2,
            ?_, h1, h2, h3, h4, h5⟩
          rw [hl, hr]
          simp [List.append_assoc]

/-- Soundness of the extraction scan: every reported identifier comes from
an actual well-formed placeholder occurrence in the input. -/
theorem findVarsL_sound {v : String} {l : List Char} (hv : v ∈ findVarsL l) :
    ∃ a w1 b w2 r, l = a ++ '[' :: '[' :: (w1 ++ (b ++ (w2 ++ ']' :: ']' :: r))) ∧
      (∀ c ∈ w1, isSpaceChar c = true) ∧ (∀ c ∈ b, isWordChar c = true) ∧ b ≠ [] ∧
      (∀ c ∈ w2, isSpaceChar c = true) ∧ v = String.mk b :=
  findVarsL_sound_aux v l.length l (le_refl _) hv

theorem mem_findVarsL_of_decomp_aux {w1 b w2 : List Char}
    (hw1 : ∀ c ∈ w1, isSpaceChar c = true) (hb : ∀ c ∈ b, isWordChar c = true)
    (hbne : b ≠ []) (hw2 : ∀ c ∈ w2, isSpaceChar c = true) :
    ∀ (n : Nat) (l a r : List Char), l.length ≤ n →
    l = a ++ '[' :: '[' :: (w1 ++ (b ++ (w2 ++ ']' :: ']' :: r))) →
    String.mk b ∈ findVarsL l := by
  intro n
  induction n with
  | zero =>
    intro l a r hlen hl
    subst hl
    simp at hlen
  | succ n ih =>
    intro l a r hlen hl
    subst hl
    cases a with
    | nil =>
      rw [List.nil_append, findVarsL_cons_some (tryMatch_span hw1 hb hbne hw2)]
      exact List.mem_cons_self _ _
    | cons x a1 =>
      rw [List.cons_append]
      cases h : tryMatch (x :: (a1 ++ '[' :: '[' :: (w1 ++ (b ++ (w2 ++ ']' :: ']' :: r))))) with
      | none =>
        rw [findVarsL_cons_none h]
        refine ih _ a1 r ?_ rfl
        simp only [List.length_cons, List.length_append] at hlen ⊢
        omega
      | some p =>
        obtain ⟨u, rM⟩ := p
        rw [findVarsL_cons_some h]
        obtain ⟨s1, sw, s2, hl2, g1, g2, g3, g4, -⟩ := tryMatch_inv h
        have hsplit := span_split g1 g2 g3 g4 hw1 hb hbne hw2
          (by rw [← hl2, List.cons_append])
        rcases hsplit with ⟨a2, -, hrM⟩ | ⟨hcontra, -⟩
        · refine List.mem_cons_of_mem _ ?_
          have hrlen : rM.length ≤ n := by
            have h2 := tryMatch_rest_length h
            have h3 : (a1 ++ '[' :: '[' :: (w1 ++ (b ++ (w2 ++ ']' :: ']' :: r)))).length + 1 ≤
                n + 1 := hlen
            rw [List.length_cons] at h2
            omega
          exact ih rM a2 r hrlen hrM
        · exact absurd hcontra (by simp)

/-- Completeness of the extraction scan: every well-formed placeholder
occurrence is reported (with exactly its identifier). -/
theorem mem_findVarsL_of_decomp {l a w1 b w2 r : List Char}
    (hl : l = a ++ '[' :: '[' :: (w1 ++ (b ++ (w2 ++ ']' :: ']' :: r))))
    (hw1 : ∀ c ∈ w1, isSpaceChar c = true) (hb : ∀ c ∈ b, isWordChar c = true)
    (hbne : b ≠ []) (hw2 : ∀ c ∈ w2, isSpaceChar c = true) :
    String.mk b ∈ findVarsL l :=
  mem_findVarsL_of_decomp_aux hw1 hb hbne hw2 l.length l a r (le_refl _) hl

/-- The scan reports nothing iff the input has no well-formed placeholder. -/
theorem findVarsL_nil_iff {l : List Char} : findVarsL l = [] ↔ ¬ HasVar l := by
  constructor
  · rintro h ⟨a, w1, b, w2, r, hl, h1, h2, h3, h4⟩
    have := mem_findVarsL_of_decomp hl h1 h2 h3 h4
    simp [h] at this
  · intro h
    by_contra hne
    obtain ⟨v, hv⟩ := List.exists_mem_of_ne_nil _ hne
    obtain ⟨a, w1, b, w2, r, hl, h1, h2, h3, h4, -⟩ := findVarsL_sound hv
    exact h ⟨a, w1, b, w2, r, hl, h1, h2, h3, h4⟩

/-! Chunk decompositions: a template split into bracket-free literal text
and well-formed placeholders.  `flattenChunks` recovers the template. -/

/-- One chunk of a decomposed template. -/
inductive Chunk where
  | lit : List Char → Chunk
  | ph : List Char → List Char → List Char → Chunk

/-- The text of one chunk (`ph w1 b w2` is `[[` `w1` `b` `w2` `]]`). -/
def flattenChunk : Chunk → List Char
  | .lit l => l
  | .ph w1 b w2 => '[' :: '[' :: (w1 ++ (b ++ (w2 ++ [']', ']'])))

/-- The full text of a chunk list. -/
def flattenChunks : List Chunk → List Char
  | [] => []
  | c :: cs => flattenChunk c ++ flattenChunks cs

/-- Bracket-free text. -/
def bracketFreeB (l : List Char) : Bool := l.all (fun c => !(c = '[') && !(c = ']'))

/-- Well-formedness of a chunk: literal chunks are bracket-free,
placeholder chunks have space padding and a nonempty word identifier. -/
def wfChunkB : Chunk → Bool
  | .lit l => bracketFreeB l
  | .ph w1 b w2 => w1.all isSpaceChar && (b.all isWordChar && (!b.isEmpty && w2.all isSpaceChar))

/-- Well-formedness of a chunk list. -/
def wfChunksB (cs : List Chunk) : Bool := cs.all wfChunkB

/-- The identifiers of the placeholder chunks, in order. -/
def phIds : List Chunk → List String
  | [] => []
  | .lit _ :: cs => phIds cs
  | .ph _ b _ :: cs => String.mk b :: phIds cs

theorem bracketFree_no_lb {l : List Char} (h : bracketFreeB l = true) : ∀ c ∈ l, c ≠ '[' := by
  intro c hc
  have := List.all_eq_true.mp h c hc
  simp only [Bool.and_eq_true, Bool.not_eq_eq_eq_not, Bool.not_true, decide_eq_false_iff_not]
    at this
  exact this.1

theorem bracketFree_no_rb {l : List Char} (h : bracketFreeB l = true) : ∀ c ∈ l, c ≠ ']' := by
  intro c hc
  have := List.all_eq_true.mp h c hc
  simp only [Bool.and_eq_true, Bool.not_eq_eq_eq_not, Bool.not_true, decide_eq_false_iff_not]
    at this
  exact this.2

theorem wfChunk_ph {w1 b w2 : List Char} (h : wfChunkB (.ph w1 b w2) = true) :
    (∀ c ∈ w1, isSpaceChar c = true) ∧ (∀ c ∈ b, isWordChar c = true) ∧ b ≠ [] ∧
    (∀ c ∈ w2, isSpaceChar c = true) := by
  simp only [wfChunkB, Bool.and_eq_true] at h
  refine ⟨fun c hc => List.all_eq_true.mp h.1 c hc,
    fun c hc => List.all_eq_true.mp h.2.1 c hc, ?_,
    fun c hc => List.all_eq_true.mp h.2.2.2 c hc⟩
  intro hb
  subst hb
  simp at h

theorem wfChunksB_cons {c : Chunk} {cs : List Chunk} (h : wfChunksB (c :: cs) = true) :
    wfChunkB c = true ∧ wfChunksB cs = true := by
  simpa [wfChunksB, List.all_cons, Bool.and_eq_true] using h

theorem flattenChunk_ph_append {w1 b w2 rest : List Char} :
    flattenChunk (.ph w1 b w2) ++ rest = '[' :: '[' :: (w1 ++ (b ++ (w2 ++ ']' :: ']' :: rest))) := by
  simp [flattenChunk, List.append_assoc]

/-- Scanning the text of a well-formed chunk list reports exactly the
placeholder identifiers, in order. -/
theorem findVarsL_flatten : ∀ {cs : List Chunk}, wfChunksB cs = true →
    findVarsL (flattenChunks cs) = phIds cs
  | [], _ => rfl
  | .lit l :: cs, h => by
    obtain ⟨h1, h2⟩ := wfChunksB_cons h
    rw [flattenChunks, flattenChunk,
      findVarsL_append_nolb (bracketFree_no_lb h1), findVarsL_flatten h2]
    rfl
  | .ph w1 b w2 :: cs, h => by
    obtain ⟨h1, h2⟩ := wfChunksB_cons h
    obtain ⟨g1, g2, g3, g4⟩ := wfChunk_ph h1
    rw [flattenChunks, flattenChunk_ph_append,
      findVarsL_cons_some (tryMatch_span g1 g2 g3 g4), findVarsL_flatten h2]
    rfl

theorem extract_variables_eq (t : String) :
    extract_variables t = pySortedSet (findVarsL t.data) := by
  unfold extract_variables
  split
  · rename_i h
    have : t = "" := by
      cases t with
      | mk d =>
        cases d with
        | nil => rfl
        | cons c cs =>
          exfalso
          simp only [String.isEmpty, String.endPos, String.utf8ByteSize,
            String.utf8ByteSize.go, beq_iff_eq] at h
          have h2 : String.utf8ByteSize.go cs + c.utf8Size = 0 :=
            congrArg String.Pos.byteIdx h
          have := Char.utf8Size_pos c
          omega
    subst this
    rfl
  · rfl

theorem mem_extract {t : String} {v : String} :
    v ∈ extract_variables t ↔ v ∈ findVarsL t.data := by
  rw [extract_variables_eq, mem_pySortedSet]

/-! Behaviour of the per-key substitution scanner `tryKeyAt` / `subScanL`. -/

theorem drop_takeWhile_length (p : Char → Bool) :
    ∀ l : List Char, l.drop ((l.takeWhile p).length) = l.dropWhile p
  | [] => rfl
  | c :: cs => by
    by_cases h : p c = true
    · rw [List.takeWhile_cons, if_pos h, List.dropWhile_cons, if_pos h, List.length_cons,
        List.drop_succ_cons, drop_takeWhile_length p cs]
    · rw [takeWhile_cons_false (Bool.eq_false_iff.mpr h),
        dropWhile_cons_false (Bool.eq_false_iff.mpr h), List.length_nil, List.drop_zero]

theorem take_spaces {rest : List Char} {n : Nat}
    (hn : n ≤ (rest.takeWhile isSpaceChar).length) :
    ∀ c ∈ rest.take n, isSpaceChar c = true := by
  intro c hc
  have h1 : rest.take n = (rest.takeWhile isSpaceChar).take n := by
    conv_lhs => rw [← List.takeWhile_append_dropWhile (p := isSpaceChar) (l := rest)]
    rw [List.take_append_eq_append_take, Nat.sub_eq_zero_of_le hn, List.take_zero,
      List.append_nil]
  rw [h1] at hc
  exact List.mem_takeWhile_imp (List.mem_of_mem_take hc)

theorem leadEq_iff : ∀ {a b : List Char}, leadEq a b = true ↔ ∃ t, a ++ t = b
  | [], b => by simp [leadEq]
  | c :: a2, [] => by
    constructor
    · intro h
      simp [leadEq] at h
    · rintro ⟨t, ht⟩
      simp at ht
  | c :: a2, d :: b2 => by
    simp only [leadEq, Bool.and_eq_true, decide_eq_true_eq]
    constructor
    · rintro ⟨rfl, h⟩
      obtain ⟨t, ht⟩ := leadEq_iff.mp h
      exact ⟨t, by rw [List.cons_append, ht]⟩
    · rintro ⟨t, ht⟩
      rw [List.cons_append, List.cons.injEq] at ht
      exact ⟨ht.1, leadEq_iff.mpr ⟨t, ht.2⟩⟩

theorem leadEq_self_append (k t : List Char) : leadEq k (k ++ t) = true :=
  leadEq_iff.mpr ⟨t, rfl⟩

theorem checkAt_inv {k rest : List Char} {n len : Nat} (h : checkAt k rest n = some len) :
    ∃ t1, rest.drop n = k ++ t1 ∧
      len = n + k.length + (t1.takeWhile isSpaceChar).length + 2 ∧
      t1.dropWhile isSpaceChar = ']' :: ']' :: ((t1.dropWhile isSpaceChar).drop 2) := by
  simp only [checkAt] at h
  split at h
  · rename_i hlead
    obtain ⟨t1, ht1⟩ := leadEq_iff.mp hlead
    rw [← ht1, List.drop_left] at h
    split at h
    · rename_i hcond
      rw [Option.some.injEq] at h
      rw [drop_takeWhile_length] at hcond
      exact ⟨t1, ht1.symm, h.symm, take_two_eq hcond⟩
    · exact absurd h (by simp)
  · exact absurd h (by simp)

theorem tryTail_inv {k rest : List Char} : ∀ {N len : Nat}, tryTail k rest N = some len →
    ∃ n, n ≤ N ∧ checkAt k rest n = some len := by
  intro N
  induction N with
  | zero => exact fun h => ⟨0, le_refl 0, h⟩
  | succ N ih =>
    intro len h
    rw [tryTail] at h
    cases hc : checkAt k rest (N + 1) with
    | some len2 =>
      rw [hc] at h
      rw [Option.some.injEq] at h
      exact ⟨N + 1, le_refl _, h ▸ hc⟩
    | none =>
      rw [hc] at h
      obtain ⟨n, hn, hcn⟩ := ih h
      exact ⟨n, Nat.le_succ_of_le hn, hcn⟩

theorem tryTail_here {k rest : List Char} {n len : Nat} (h : checkAt k rest n = some len) :
    tryTail k rest n = some len := by
  cases n with
  | zero => exact h
  | succ m => rw [tryTail, h]

theorem tryKeyAt_head_ne {k : List Char} {c : Char} {cs : List Char} (h : c ≠ '[') :
    tryKeyAt k (c :: cs) = none := by
  cases cs with
  | nil => rfl
  | cons c2 cs2 =>
    simp only [tryKeyAt]
    rw [if_neg]
    rintro ⟨h1, _⟩
    exact h h1

theorem tryKeyAt_second_ne {k : List Char} {c : Char} {cs : List Char} (h : c ≠ '[') :
    tryKeyAt k ('[' :: c :: cs) = none := by
  simp only [tryKeyAt]
  rw [if_neg]
  rintro ⟨_, h2⟩
  exact h h2

theorem span_shape_append {sp1 kk sp2 t : List Char} :
    ('[' :: '[' :: (sp1 ++ (kk ++ (sp2 ++ [']', ']'])))) ++ t =
      '[' :: '[' :: (sp1 ++ (kk ++ (sp2 ++ ']' :: ']' :: t))) := by
  simp [List.append_assoc]

theorem span_shape_length {sp1 kk sp2 : List Char} :
    ('[' :: '[' :: (sp1 ++ (kk ++ (sp2 ++ [']', ']'])))).length =
      sp1.length + kk.length + sp2.length + 4 := by
  simp [List.length_append]
  omega

/-- Inversion of a successful key match: the input starts with the span
`[[` spaces `k` spaces `]]`, and the match length is the span length. -/
theorem tryKeyAt_inv {k l : List Char} {nTot : Nat} (h : tryKeyAt k l = some nTot) :
    ∃ sp1 sp2 t, l = '[' :: '[' :: (sp1 ++ (k ++ (sp2 ++ ']' :: ']' :: t))) ∧
      (∀ c ∈ sp1, isSpaceChar c = true) ∧ (∀ c ∈ sp2, isSpaceChar c = true) ∧
      nTot = sp1.length + k.length + sp2.length + 4 ∧ l.drop nTot = t := by
  match l with
  | [] => exact absurd h (by simp [tryKeyAt])
  | [c] => exact absurd h (by simp [tryKeyAt])
  | c1 :: c2 :: rest =>
    simp only [tryKeyAt] at h
    split at h
    · rename_i hc
      obtain ⟨rfl, rfl⟩ := hc
      cases ht : tryTail k rest ((rest.takeWhile isSpaceChar).length) with
      | none => rw [ht] at h; exact absurd h (by simp)
      | some len =>
        rw [ht, Option.some.injEq] at h
        obtain ⟨n, hnN, hchk⟩ := tryTail_inv ht
        obtain ⟨t1, hdrop, hlen, hdw⟩ := checkAt_inv hchk
        have hsp1 : ∀ c ∈ rest.take n, isSpaceChar c = true := take_spaces hnN
        have hnlen : n ≤ rest.length := le_trans hnN
          (by
            have := congrArg List.length (List.takeWhile_append_dropWhile
              (p := isSpaceChar) (l := rest))
            rw [List.length_append] at this
            omega)
        have htk : (rest.take n).length = n := by
          rw [List.length_take]
          exact Nat.min_eq_left hnlen
        have hrest : rest = rest.take n ++ (k ++ t1) := by
          rw [← hdrop, List.take_append_drop]
        have ht1 : t1 = t1.takeWhile isSpaceChar ++
            (']' :: ']' :: ((t1.dropWhile isSpaceChar).drop 2)) := by
          conv_lhs => rw [← List.takeWhile_append_dropWhile (p := isSpaceChar) (l := t1)]
          rw [← hdw]
        refine ⟨rest.take n, t1.takeWhile isSpaceChar, (t1.dropWhile isSpaceChar).drop 2,
          ?_, hsp1, fun c hc => List.mem_takeWhile_imp hc, ?_, ?_⟩
        · conv_lhs => rw [hrest, ht1]
        · rw [← h, hlen, htk]
        · have hspan : ('[' : Char) :: '[' :: rest =
              ('[' :: '[' :: (rest.take n ++ (k ++ ((t1.takeWhile isSpaceChar) ++
                [']', ']'])))) ++ ((t1.dropWhile isSpaceChar).drop 2) := by
            conv_lhs => rw [hrest, ht1]
            exact span_shape_append.symm
          rw [hspan]
          have hlen2 : ('[' :: '[' :: (rest.take n ++ (k ++ ((t1.takeWhile isSpaceChar) ++
              [']', ']'])))).length = nTot := by
            rw [span_shape_length, htk, ← h, hlen]
          rw [← hlen2, List.drop_left]
    · exact absurd h (by simp)

/-- A key pattern matches the placeholder-shaped span whose identifier is
exactly the key (the greedy leading `\s*` succeeds at the first attempt). -/
theorem tryKeyAt_chunk {k w1 w2 t : List Char}
    (hk : ∀ c ∈ k, isWordChar c = true) (hkne : k ≠ [])
    (hw1 : ∀ c ∈ w1, isSpaceChar c = true) (hw2 : ∀ c ∈ w2, isSpaceChar c = true) :
    tryKeyAt k ('[' :: '[' :: (w1 ++ (k ++ (w2 ++ ']' :: ']' :: t)))) =
      some (w1.length + k.length + w2.length + 4) := by
  have hN : (w1 ++ (k ++ (w2 ++ ']' :: ']' :: t))).takeWhile isSpaceChar = w1 :=
    takeWhile_eq_of hw1 (word_head_not_space hk hkne)
  have hdrop : (w1 ++ (k ++ (w2 ++ ']' :: ']' :: t))).drop w1.length =
      k ++ (w2 ++ ']' :: ']' :: t) := List.drop_left ..
  have htw : (w2 ++ ']' :: ']' :: t).takeWhile isSpaceChar = w2 :=
    takeWhile_eq_of hw2 rb_head_not_space
  have hdw : (w2 ++ ']' :: ']' :: t).dropWhile isSpaceChar = ']' :: ']' :: t :=
    dropWhile_eq_of hw2 rb_head_not_space
  have hchk : checkAt k (w1 ++ (k ++ (w2 ++ ']' :: ']' :: t))) w1.length =
      some (w1.length + k.length + w2.length + 2) := by
    simp only [checkAt, hdrop, leadEq_self_append, if_pos, List.drop_left,
      drop_takeWhile_length, htw, hdw]
    simp
  have harith : w1.length + k.length + w2.length + 2 + 2 =
      w1.length + k.length + w2.length + 4 := by omega
  simp only [tryKeyAt, hN, tryTail_here hchk]
  simp [harith]

/-- A key pattern never matches at a placeholder whose identifier differs
from the key (for word-character keys). -/
theorem tryKeyAt_ph_ne {k w1 b w2 t : List Char}
    (hk : ∀ c ∈ k, isWordChar c = true) (hkne : k ≠ [])
    (hw1 : ∀ c ∈ w1, isSpaceChar c = true) (hb : ∀ c ∈ b, isWordChar c = true)
    (hbne : b ≠ []) (hw2 : ∀ c ∈ w2, isSpaceChar c = true) (hne : b ≠ k) :
    tryKeyAt k ('[' :: '[' :: (w1 ++ (b ++ (w2 ++ ']' :: ']' :: t)))) = none := by
  cases h : tryKeyAt k ('[' :: '[' :: (w1 ++ (b ++ (w2 ++ ']' :: ']' :: t)))) with
  | none => rfl
  | some n =>
    exfalso
    obtain ⟨sp1, sp2, t2, hl, hs1, hs2, -, -⟩ := tryKeyAt_inv h
    simp only [List.cons.injEq, true_and] at hl
    obtain ⟨-, heq, -⟩ := sw_parse_unique hw1 hb hbne hw2 hs1 hk hkne hs2 hl
    exact hne heq

theorem tryKeyAt_some_bound {k l : List Char} {n : Nat} (h : tryKeyAt k l = some n) :
    1 ≤ n ∧ n ≤ l.length := by
  obtain ⟨sp1, sp2, t, rfl, -, -, hn, -⟩ := tryKeyAt_inv h
  subst hn
  simp [List.length_append]
  omega

theorem subAux_congr {k : List Char} {items : List TItem} : ∀ (f1 f2 : Nat) (l : List Char),
    l.length ≤ f1 → l.length ≤ f2 → subAux k items f1 l = subAux k items f2 l := by
  intro f1
  induction f1 with
  | zero =>
    intro f2 l h1 _
    have : l = [] := List.eq_nil_of_length_eq_zero (Nat.le_zero.mp h1)
    subst this
    cases f2 <;> rfl
  | succ f ih =>
    intro f2 l h1 h2
    cases l with
    | nil => cases f2 <;> rfl
    | cons c cs =>
      cases f2 with
      | zero => simp at h2
      | succ g =>
        cases h : tryKeyAt k (c :: cs) with
        | none =>
          simp only [subAux, h]
          rw [ih g cs (Nat.le_of_succ_le_succ h1) (Nat.le_of_succ_le_succ h2)]
        | some n =>
          obtain ⟨hn1, hn2⟩ := tryKeyAt_some_bound h
          simp only [subAux, h]
          rw [ih g ((c :: cs).drop n) ?_ ?_]
          · rw [List.length_drop, List.length_cons]
            simp only [List.length_cons] at h1
            omega
          · rw [List.length_drop, List.length_cons]
            simp only [List.length_cons] at h2
            omega

theorem subScanL_some {k l : List Char} {items : List TItem} {n : Nat}
    (h : tryKeyAt k l = some n) :
    subScanL k items l = expandT items (l.take n) ++ subScanL k items (l.drop n) := by
  cases l with
  | nil => exact absurd h (by simp [tryKeyAt])
  | cons c cs =>
    obtain ⟨hn1, hn2⟩ := tryKeyAt_some_bound h
    unfold subScanL
    rw [show (c :: cs).length = cs.length + 1 from rfl]
    simp only [subAux, h]
    rw [subAux_congr cs.length ((c :: cs).drop n).length ((c :: cs).drop n) ?_ (le_refl _)]
    rw [List.length_drop, List.length_cons]
    simp only [List.length_cons] at hn2
    omega

theorem subScanL_none {k : List Char} {items : List TItem} {c : Char} {cs : List Char}
    (h : tryKeyAt k (c :: cs) = none) :
    subScanL k items (c :: cs) = c :: subScanL k items cs := by
  unfold subScanL
  rw [show (c :: cs).length = cs.length + 1 from rfl]
  simp only [subAux, h]

theorem subScanL_append_nolb {k : List Char} {items : List TItem} :
    ∀ {a rest : List Char}, (∀ c ∈ a, c ≠ '[') →
    subScanL k items (a ++ rest) = a ++ subScanL k items rest
  | [], rest, _ => by rw [List.nil_append, List.nil_append]
  | c :: a2, rest, h => by
    rw [List.cons_append, subScanL_none (tryKeyAt_head_ne (h c (List.mem_cons_self c a2))),
      subScanL_append_nolb (fun d hd => h d (List.mem_cons_of_mem c hd)), List.cons_append]

/-- The per-key pass copies a placeholder with a different identifier
verbatim and continues after it. -/
theorem subScanL_ph_skip {k w1 b w2 rest : List Char} {items : List TItem}
    (hk : ∀ c ∈ k, isWordChar c = true) (hkne : k ≠ [])
    (hw1 : ∀ c ∈ w1, isSpaceChar c = true) (hb : ∀ c ∈ b, isWordChar c = true)
    (hbne : b ≠ []) (hw2 : ∀ c ∈ w2, isSpaceChar c = true) (hne : b ≠ k) :
    subScanL k items ('[' :: '[' :: (w1 ++ (b ++ (w2 ++ ']' :: ']' :: rest)))) =
      '[' :: '[' :: (w1 ++ (b ++ (w2 ++ ']' :: ']' :: subScanL k items rest))) := by
  rw [subScanL_none (tryKeyAt_ph_ne hk hkne hw1 hb hbne hw2 hne)]
  have hstep2 : subScanL k items ('[' :: (w1 ++ (b ++ (w2 ++ ']' :: ']' :: rest)))) =
      '[' :: subScanL k items (w1 ++ (b ++ (w2 ++ ']' :: ']' :: rest))) := by
    cases w1 with
    | nil =>
      cases b with
      | nil => exact absurd rfl hbne
      | cons cb b2 =>
        rw [List.nil_append, List.cons_append]
        exact subScanL_none (tryKeyAt_second_ne
          (word_ne_lb (hb cb (List.mem_cons_self cb b2))))
    | cons cw w1b =>
      rw [List.cons_append]
      exact subScanL_none (tryKeyAt_second_ne
        (space_ne_lb (hw1 cw (List.mem_cons_self cw w1b))))
  rw [hstep2]
  have hbody : w1 ++ (b ++ (w2 ++ ']' :: ']' :: rest)) =
      (w1 ++ (b ++ (w2 ++ [']', ']']))) ++ rest := by
    simp [List.append_assoc]
  rw [hbody, subScanL_append_nolb
    (fun c hc e => span_body_no_lb hw1 hb hw2 (e ▸ hc))]
  simp [List.append_assoc]

/-- The per-key pass replaces a placeholder whose identifier is the key by
the expanded replacement and continues after it (not inside it). -/
theorem subScanL_chunk_hit {k w1 w2 rest : List Char} {items : List TItem}
    (hk : ∀ c ∈ k, isWordChar c = true) (hkne : k ≠ [])
    (hw1 : ∀ c ∈ w1, isSpaceChar c = true) (hw2 : ∀ c ∈ w2, isSpaceChar c = true) :
    subScanL k items ('[' :: '[' :: (w1 ++ (k ++ (w2 ++ ']' :: ']' :: rest)))) =
      expandT items ('[' :: '[' :: (w1 ++ (k ++ (w2 ++ [']', ']'])))) ++
        subScanL k items rest := by
  rw [subScanL_some (tryKeyAt_chunk hk hkne hw1 hw2)]
  have h1 : ('[' :: '[' :: (w1 ++ (k ++ (w2 ++ ']' :: ']' :: rest)))).take
      (w1.length + k.length + w2.length + 4) =
      '[' :: '[' :: (w1 ++ (k ++ (w2 ++ [']', ']']))) := by
    rw [← span_shape_append, ← span_shape_length, List.take_left]
  have h2 : ('[' :: '[' :: (w1 ++ (k ++ (w2 ++ ']' :: ']' :: rest)))).drop
      (w1.length + k.length + w2.length + 4) = rest := by
    rw [← span_shape_append, ← span_shape_length, List.drop_left]
  rw [h1, h2]

/-- Replacement of one placeholder chunk by one key's pass. -/
def killChunk (k : List Char) (items : List TItem) : Chunk → Chunk
  | .lit l => .lit l
  | .ph w1 b w2 =>
    if b = k then .lit (expandT items (flattenChunk (.ph w1 b w2))) else .ph w1 b w2

/-- One full `re.sub` pass over the text of a well-formed chunk list:
exactly the placeholders carrying the key are replaced, each by the
expanded replacement template, and nothing else changes. -/
theorem subScanL_flatten {k : List Char} {items : List TItem}
    (hk : ∀ c ∈ k, isWordChar c = true) (hkne : k ≠ []) :
    ∀ {cs : List Chunk}, wfChunksB cs = true →
    subScanL k items (flattenChunks cs) = flattenChunks (cs.map (killChunk k items))
  | [], _ => rfl
  | .lit l :: cs, h => by
    obtain ⟨h1, h2⟩ := wfChunksB_cons h
    rw [flattenChunks, flattenChunk, subScanL_append_nolb (bracketFree_no_lb h1),
      subScanL_flatten hk hkne h2, List.map_cons]
    rfl
  | .ph w1 b w2 :: cs, h => by
    obtain ⟨h1, h2⟩ := wfChunksB_cons h
    obtain ⟨g1, g2, g3, g4⟩ := wfChunk_ph h1
    by_cases hbk : b = k
    · subst hbk
      rw [flattenChunks, flattenChunk_ph_append, subScanL_chunk_hit hk hkne g1 g4,
        subScanL_flatten hk hkne h2, List.map_cons]
      simp [killChunk, flattenChunks, flattenChunk]
    · rw [flattenChunks, flattenChunk_ph_append,
        subScanL_ph_skip hk hkne g1 g2 g3 g4 hbk,
        subScanL_flatten hk hkne h2, List.map_cons]
      simp [killChunk, hbk, flattenChunks, flattenChunk, List.append_assoc]

/-- Literal-replacement version of `killChunk`. -/
def killLit (k v : List Char) : Chunk → Chunk
  | .lit l => .lit l
  | .ph w1 b w2 => if b = k then .lit v else .ph w1 b w2

theorem expandT_lit (v m : List Char) : expandT [TItem.lit v] m = v := by
  simp [expandT]

theorem killChunk_lit (k v : List Char) (c : Chunk) :
    killChunk k [TItem.lit v] c = killLit k v c := by
  cases c with
  | lit l => rfl
  | ph w1 b w2 =>
    simp only [killChunk, killLit, expandT_lit]

/-- A word-character key: nonempty, all word characters. -/
def keyOKB (k : String) : Bool := !k.data.isEmpty && k.data.all isWordChar

/-- A benign substitution value: no brackets, no backslash. -/
def valOKB (v : String) : Bool :=
  v.data.all (fun c => !(c = '[') && (!(c = ']') && !(c = '\\')))

theorem keyOK_word {k : String} (h : keyOKB k = true) :
    (∀ c ∈ k.data, isWordChar c = true) ∧ k.data ≠ [] := by
  simp only [keyOKB, Bool.and_eq_true] at h
  refine ⟨fun c hc => List.all_eq_true.mp h.2 c hc, ?_⟩
  intro he
  rw [he] at h
  simp at h

theorem valOK_bracketFree {v : String} (h : valOKB v = true) :
    bracketFreeB v.data = true := by
  simp only [valOKB] at h
  simp only [bracketFreeB]
  rw [List.all_eq_true] at h ⊢
  intro c hc
  have := h c hc
  simp only [Bool.and_eq_true] at this ⊢
  exact ⟨this.1, this.2.1⟩

theorem contains_false_of_no_bs : ∀ {v : List Char}, (∀ c ∈ v, c ≠ '\\') →
    v.contains '\\' = false
  | [], _ => rfl
  | c :: cs, h => by
    have hc : ('\\' == c) = false := by
      rw [beq_eq_false_iff_ne]
      exact fun e => (h c (List.mem_cons_self c cs)) e.symm
    have ih := contains_false_of_no_bs (fun d hd => h d (List.mem_cons_of_mem c hd))
    simp only [List.contains, List.elem] at ih ⊢
    rw [hc]
    exact ih

theorem valOK_no_bs {v : String} (h : valOKB v = true) :
    v.data.contains '\\' = false := by
  apply contains_false_of_no_bs
  intro c hc e
  have := List.all_eq_true.mp h c hc
  subst e
  simp at this

theorem wf_killLit {k v : List Char} (hv : bracketFreeB v = true) :
    ∀ {cs : List Chunk}, wfChunksB cs = true →
    wfChunksB ((cs.map (killLit k v))) = true
  | [], _ => rfl
  | .lit l :: cs, h => by
    obtain ⟨h1, h2⟩ := wfChunksB_cons h
    simp only [List.map_cons, wfChunksB, List.all_cons, Bool.and_eq_true]
    exact ⟨h1, wf_killLit hv h2⟩
  | .ph w1 b w2 :: cs, h => by
    obtain ⟨h1, h2⟩ := wfChunksB_cons h
    simp only [List.map_cons, wfChunksB, List.all_cons, Bool.and_eq_true]
    refine ⟨?_, wf_killLit hv h2⟩
    by_cases hbk : b = k
    · simp [killLit, hbk, wfChunkB, hv]
    · simpa [killLit, hbk] using h1

theorem phIds_killLit {k v : List Char} {s : String} :
    ∀ {cs : List Chunk}, s ∈ phIds (cs.map (killLit k v)) → s ∈ phIds cs ∧ s.data ≠ k
  | [], h => by simp [phIds] at h
  | .lit l :: cs, h => by
    simp only [List.map_cons, killLit, phIds] at h
    have := phIds_killLit h
    exact ⟨this.1, this.2⟩
  | .ph w1 b w2 :: cs, h => by
    simp only [List.map_cons] at h
    by_cases hbk : b = k
    · rw [show killLit k v (.ph w1 b w2) = .lit v from by simp [killLit, hbk]] at h
      rw [show phIds (Chunk.lit v :: cs.map (killLit k v)) = phIds (cs.map (killLit k v))
        from rfl] at h
      have := phIds_killLit h
      exact ⟨by simp [phIds, this.1], this.2⟩
    · rw [show killLit k v (.ph w1 b w2) = .ph w1 b w2 from by simp [killLit, hbk]] at h
      rw [show phIds (Chunk.ph w1 b w2 :: cs.map (killLit k v)) =
        String.mk b :: phIds (cs.map (killLit k v)) from rfl] at h
      rcases List.mem_cons.mp h with rfl | h2
      · exact ⟨List.mem_cons_self _ _, hbk⟩
      · have := phIds_killLit h2
        exact ⟨List.mem_cons_of_mem _ this.1, this.2⟩

theorem substOne_literal {k v : String} {l : List Char} (h : v.data.contains '\\' = false) :
    substOne k v l = some (subScanL k.data [TItem.lit v.data] l) := by
  have hnot : ¬ (v.data.contains '\\' = true) := by rw [h]; simp
  unfold substOne
  rw [if_neg hnot]

/-- Running the whole context loop over the text of a well-formed chunk
list with word-character keys and benign values: it succeeds, the result is
again the text of a well-formed chunk list, and every surviving
placeholder was already present and carries an identifier that is not a
context key. -/
theorem substLoop_chunks : ∀ (ctx : List (String × String)) (cs : List Chunk),
    wfChunksB cs = true →
    (∀ kv ∈ ctx, keyOKB kv.1 = true ∧ valOKB kv.2 = true) →
    ∃ cs2, substLoop ctx (flattenChunks cs) = some (flattenChunks cs2) ∧
      wfChunksB cs2 = true ∧
      (∀ s ∈ phIds cs2, s ∈ phIds cs ∧ ∀ kv ∈ ctx, s.data ≠ kv.1.data)
  | [], cs, hwf, _ => ⟨cs, rfl, hwf, fun s hs => ⟨hs, fun kv hkv => absurd hkv (by simp)⟩⟩
  | (k, v) :: ctx, cs, hwf, hctx => by
    obtain ⟨hkOK, hvOK⟩ := hctx (k, v) (List.mem_cons_self _ _)
    obtain ⟨hkw, hkne⟩ := keyOK_word hkOK
    have hsub : substOne k v (flattenChunks cs) =
        some (subScanL k.data [TItem.lit v.data] (flattenChunks cs)) :=
      substOne_literal (valOK_no_bs hvOK)
    have hscan : subScanL k.data [TItem.lit v.data] (flattenChunks cs) =
        flattenChunks (cs.map (killLit k.data v.data)) := by
      rw [subScanL_flatten hkw hkne hwf]
      congr 1
      exact List.map_congr_left (fun c _ => killChunk_lit k.data v.data c)
    obtain ⟨cs2, hloop, hwf2, hids⟩ := substLoop_chunks ctx (cs.map (killLit k.data v.data))
      (wf_killLit (valOK_bracketFree hvOK) hwf)
      (fun kv hkv => hctx kv (List.mem_cons_of_mem _ hkv))
    refine ⟨cs2, ?_, hwf2, ?_⟩
    · rw [substLoop, hsub, hscan]
      show substLoop ctx (flattenChunks (cs.map (killLit k.data v.data))) =
        some (flattenChunks cs2)
      exact hloop
    · intro s hs
      obtain ⟨hs1, hs2⟩ := hids s hs
      obtain ⟨hs3, hs4⟩ := phIds_killLit hs1
      refine ⟨hs3, ?_⟩
      intro kv hkv
      rcases List.mem_cons.mp hkv with rfl | hkv2
      · exact hs4
      · exact hs2 kv hkv2

theorem isEmpty_iff_data {t : String} : t.isEmpty = true ↔ t.data = [] := by
  constructor
  · intro h
    cases t with
    | mk d =>
      cases d with
      | nil => rfl
      | cons c cs =>
        exfalso
        simp only [String.isEmpty, String.endPos, String.utf8ByteSize,
          String.utf8ByteSize.go, beq_iff_eq] at h
        have h2 : String.utf8ByteSize.go cs + c.utf8Size = 0 :=
          congrArg String.Pos.byteIdx h
        have := Char.utf8Size_pos c
        omega
  · intro h
    have : t = "" := String.data_eq t "" h
    rw [this]
    rfl

/-- One `re.sub` pass with a backslash-free value over a well-formed
template: every placeholder of the key is replaced by the literal value. -/
theorem substOne_chunks {k v : String} {cs : List Chunk} (hk : keyOKB k = true)
    (hv : v.data.contains '\\' = false) (hwf : wfChunksB cs = true) :
    substOne k v (flattenChunks cs) =
      some (flattenChunks (cs.map (killLit k.data v.data))) := by
  obtain ⟨hkw, hkne⟩ := keyOK_word hk
  rw [substOne_literal hv, subScanL_flatten hkw hkne hwf]
  congr 2
  exact List.map_congr_left (fun c _ => killChunk_lit k.data v.data c)

/-- The context loop never fails when no value contains a backslash. -/
theorem substLoop_total : ∀ (ctx : List (String × String)) (l : List Char),
    (∀ kv ∈ ctx, kv.2.data.contains '\\' = false) →
    ∃ l2, substLoop ctx l = some l2
  | [], l, _ => ⟨l, rfl⟩
  | (k, v) :: ctx, l, h => by
    have h1 : v.data.contains '\\' = false := h (k, v) (List.mem_cons_self _ _)
    rw [substLoop, substOne_literal h1]
    show ∃ l2, substLoop ctx (subScanL k.data [TItem.lit v.data] l) = some l2
    exact substLoop_total ctx _ (fun kv hkv => h kv (List.mem_cons_of_mem _ hkv))

/-- A successful `substOne` is always one scan pass with some parsed
replacement template. -/
theorem substOne_is_scan {k v : String} {l l1 : List Char} (h : substOne k v l = some l1) :
    ∃ items, l1 = subScanL k.data items l := by
  unfold substOne at h
  split at h
  · cases hp : parseTmpl v.data with
    | none => rw [hp] at h; exact absurd h (by simp)
    | some items =>
      rw [hp, Option.some.injEq] at h
      exact ⟨items, h.symm⟩
  · rw [Option.some.injEq] at h
    exact ⟨[TItem.lit v.data], h.symm⟩

/-- One pass for a word key `k ≠ b` preserves every occurrence of a
well-formed placeholder with identifier `b`. -/
theorem subScanL_preserves_ph_aux {k b w1 w2 : List Char} {items : List TItem}
    (hk : ∀ c ∈ k, isWordChar c = true) (hkne : k ≠ []) (hne : b ≠ k)
    (hw1 : ∀ c ∈ w1, isSpaceChar c = true) (hb : ∀ c ∈ b, isWordChar c = true)
    (hbne : b ≠ []) (hw2 : ∀ c ∈ w2, isSpaceChar c = true) :
    ∀ (n : Nat) (l a r : List Char), l.length ≤ n →
    l = a ++ '[' :: '[' :: (w1 ++ (b ++ (w2 ++ ']' :: ']' :: r))) →
    ∃ a2 r2, subScanL k items l =
      a2 ++ '[' :: '[' :: (w1 ++ (b ++ (w2 ++ ']' :: ']' :: r2))) := by
  intro n
  induction n with
  | zero =>
    intro l a r hlen hl
    subst hl
    simp at hlen
  | succ n ih =>
    intro l a r hlen hl
    subst hl
    cases a with
    | nil =>
      rw [List.nil_append, subScanL_ph_skip hk hkne hw1 hb hbne hw2 hne]
      exact ⟨[], subScanL k items r, by rw [List.nil_append]⟩
    | cons x a1 =>
      rw [List.cons_append]
      cases h : tryKeyAt k (x :: (a1 ++ '[' :: '[' :: (w1 ++ (b ++ (w2 ++ ']' :: ']' :: r))))) with
      | none =>
        rw [subScanL_none h]
        have hlen2 : (a1 ++ '[' :: '[' :: (w1 ++ (b ++ (w2 ++ ']' :: ']' :: r)))).length ≤ n := by
          simp only [List.cons_append, List.length_cons] at hlen
          omega
        obtain ⟨a2, r2, heq⟩ := ih _ a1 r hlen2 rfl
        exact ⟨x :: a2, r2, by rw [heq, List.cons_append]⟩
      | some nTot =>
        rw [subScanL_some h]
        obtain ⟨sp1, sp2, t, hl2, hs1, hs2, hn, hdrop⟩ := tryKeyAt_inv h
        have hsplit := span_split hs1 hk hkne hs2 hw1 hb hbne hw2
          (by rw [← hl2, List.cons_append])
        rcases hsplit with ⟨a2, -, ht⟩ | ⟨hcontra, -⟩
        · have hlenT : t.length ≤ n := by
            have hb1 := tryKeyAt_some_bound h
            have hlen3 := congrArg List.length hdrop
            rw [List.length_drop] at hlen3
            simp only [List.cons_append, List.length_cons] at hlen hb1 hlen3
            omega
          obtain ⟨a3, r3, heq3⟩ := ih t a2 r hlenT ht
          rw [hdrop, heq3]
          exact ⟨expandT items ((x :: (a1 ++ '[' :: '[' ::
            (w1 ++ (b ++ (w2 ++ ']' :: ']' :: r))))).take nTot) ++ a3, r3,
            by rw [List.append_assoc]⟩
        · exact absurd hcontra (by simp)

/-- The whole context loop (word keys, none equal to `b`) preserves every
well-formed placeholder occurrence with identifier `b`. -/
theorem substLoop_preserves_ph {b w1 w2 : List Char}
    (hw1 : ∀ c ∈ w1, isSpaceChar c = true) (hb : ∀ c ∈ b, isWordChar c = true)
    (hbne : b ≠ []) (hw2 : ∀ c ∈ w2, isSpaceChar c = true) :
    ∀ (ctx : List (String × String)) (l l2 : List Char),
    (∀ kv ∈ ctx, keyOKB kv.1 = true) → (∀ kv ∈ ctx, kv.1.data ≠ b) →
    (∃ a r, l = a ++ '[' :: '[' :: (w1 ++ (b ++ (w2 ++ ']' :: ']' :: r)))) →
    substLoop ctx l = some l2 →
    ∃ a2 r2, l2 = a2 ++ '[' :: '[' :: (w1 ++ (b ++ (w2 ++ ']' :: ']' :: r2)))
  | [], l, l2, _, _, hdec, hloop => by
    rw [substLoop, Option.some.injEq] at hloop
    exact hloop ▸ hdec
  | (k, v) :: ctx, l, l2, hkeys, hnb, hdec, hloop => by
    rw [substLoop] at hloop
    cases hone : substOne k v l with
    | none => rw [hone] at hloop; exact absurd hloop (by simp)
    | some l1 =>
      rw [hone] at hloop
      obtain ⟨items, hl1⟩ := substOne_is_scan hone
      obtain ⟨hkw, hkne⟩ := keyOK_word (hkeys (k, v) (List.mem_cons_self _ _))
      obtain ⟨a, r, hl⟩ := hdec
      obtain ⟨a2, r2, heq⟩ := subScanL_preserves_ph_aux hkw hkne
        (fun e => hnb (k, v) (List.mem_cons_self _ _) (e ▸ rfl))
        hw1 hb hbne hw2 l.length l a r (le_refl _) hl
      exact substLoop_preserves_ph hw1 hb hbne hw2 ctx l1 l2
        (fun kv hkv => hkeys kv (List.mem_cons_of_mem _ hkv))
        (fun kv hkv => hnb kv (List.mem_cons_of_mem _ hkv))
        ⟨a2, r2, by rw [hl1, heq]⟩ hloop

/-! Folder-tree builder of `promptbox/ui/prompt_view.py`
(`get_folder_structure` / `get_all_paths`); `get_card_folder_structure` in
`promptbox/ui/character_view.py` is the identical algorithm with
`_prompts_` renamed to `_cards_`, so it is embedded once, over an abstract
record type. -/

/-- A record as seen by the tree builders: only the `folder` field is
interpreted; `rid` stands for the identity of the otherwise opaque record
object (a `PromptData` or `CharacterCardData`). -/
structure RecordData where
  folder : String
  rid : Nat
deriving DecidableEq

/-- A folder node: its record list (`_prompts_` / `_cards_`) and its named
children in insertion order (the `defaultdict`). -/
inductive FolderNode where
  | node : List RecordData → List (String × FolderNode) → FolderNode

def FolderNode.items : FolderNode → List RecordData
  | .node its _ => its

def FolderNode.children : FolderNode → List (String × FolderNode)
  | .node _ ch => ch

/-- The node made by `create_node()`. -/
def emptyFN : FolderNode := .node [] []

/-- Model of Python's `str.split("/")` (keeps empty segments). -/
def splitSlash : List Char → List (List Char)
  | [] => [[]]
  | c :: rest =>
    if c = '/' then [] :: splitSlash rest
    else
      match splitSlash rest with
      | [] => [[c]]
      | s :: ss => (c :: s) :: ss

/-- Model of Python's `str.strip("/")`. -/
def stripSlashes (l : List Char) : List Char :=
  ((l.dropWhile (fun c => c = '/')).reverse.dropWhile (fun c => c = '/')).reverse

/-- Model of `[part for part in folder_path.strip("/").split("/") if part]`. -/
def splitFolder (f : String) : List String :=
  ((splitSlash (stripSlashes f.data)).filter (fun p => !p.isEmpty)).map String.mk

def lookupChild (name : String) : List (String × FolderNode) → Option FolderNode
  | [] => none
  | (n, c) :: rest => if n = name then some c else lookupChild name rest

/-- Functional model of `defaultdict` child access followed by mutation:
apply `f` to the named child, creating it (at the end, as `defaultdict`
does) when absent. -/
def updateChild (name : String) (f : FolderNode → FolderNode) :
    List (String × FolderNode) → List (String × FolderNode)
  | [] => [(name, f emptyFN)]
  | (n, c) :: rest => if n = name then (n, f c) :: rest else (n, c) :: updateChild name f rest

/-- The per-record loop body of `get_folder_structure`: walk/create child
nodes along the segments and append the record to the final segment's
node (or to the current node when no segments remain). -/
def insertRec (r : RecordData) : List String → FolderNode → FolderNode
  | [], nd => .node (nd.items ++ [r]) nd.children
  | p :: rest, nd =>
    .node nd.items (updateChild p (fun child => insertRec r rest child) nd.children)

/-- Embedding of `get_folder_structure` (and `get_card_folder_structure`). -/
def get_folder_structure (records : List RecordData) : FolderNode :=
  records.foldl (fun root r => insertRec r (splitFolder r.folder) root) emptyFN

/-- Walk the tree along a segment path. -/
def descend : List String → FolderNode → Option FolderNode
  | [], nd => some nd
  | p :: rest, nd =>
    match lookupChild p nd.children with
    | some c => descend rest c
    | none => none

/-- The record list of the node at a path (empty when the path is absent). -/
def itemsAt (nd : FolderNode) (ps : List String) : List RecordData :=
  match descend ps nd with
  | some n2 => n2.items
  | none => []

/-- Model of `new_p = f"{current_p}/{name}" if current_p else name`. -/
def extendPath (cur name : String) : String := if cur = "" then name else cur ++ "/" ++ name

/-- The DFS of `get_all_paths`, collecting every descendant path.  The
source recursion is unbounded; the fuel argument makes termination
explicit, and `get_all_paths` below supplies fuel strictly larger than the
depth of any node of the tree it traverses, so the fuel never runs out. -/
def pathsUpTo : Nat → String → FolderNode → List String
  | 0, _, _ => []
  | fuel + 1, current, nd =>
    (nd.children.map (fun nc =>
      extendPath current nc.1 :: pathsUpTo fuel (extendPath current nc.1) nc.2)).flatten

/-- Fuel bound: one more than the longest normalized folder path. -/
def fuelOf (records : List RecordData) : Nat :=
  records.foldr (fun r acc => max (splitFolder r.folder).length acc) 0 + 1

/-- Embedding of the `get_all_paths` enumeration in `render_prompt_view`:
`all_folder_paths = [""]`, the DFS appends every descendant path, and the
result is `sorted(list(set(...)))`. -/
def get_all_paths (records : List RecordData) : List String :=
  pySortedSet ("" :: pathsUpTo (fuelOf records) "" (get_folder_structure records))

theorem lookup_update_self (p : String) (f : FolderNode → FolderNode) :
    ∀ ch : List (String × FolderNode),
    lookupChild p (updateChild p f ch) = some (f ((lookupChild p ch).getD emptyFN))
  | [] => by simp [lookupChild, updateChild]
  | (n, c) :: rest => by
    by_cases hn : n = p
    · subst hn
      simp [lookupChild, updateChild]
    · rw [updateChild, if_neg hn, lookupChild, if_neg hn, lookupChild, if_neg hn]
      exact lookup_update_self p f rest

theorem lookup_update_ne {q p : String} (hqp : q ≠ p) (f : FolderNode → FolderNode) :
    ∀ ch : List (String × FolderNode),
    lookupChild q (updateChild p f ch) = lookupChild q ch
  | [] => by
    simp only [updateChild, lookupChild]
    rw [if_neg (fun e => hqp e.symm)]
  | (n, c) :: rest => by
    by_cases hn : n = p
    · subst hn
      rw [updateChild, if_pos rfl, lookupChild, lookupChild]
      rw [if_neg (fun e => hqp e.symm), if_neg (fun e => hqp e.symm)]
    · rw [updateChild, if_neg hn, lookupChild, lookupChild]
      by_cases hnq : n = q
      · rw [if_pos hnq, if_pos hnq]
      · rw [if_neg hnq, if_neg hnq]
        exact lookup_update_ne hqp f rest

theorem itemsAt_nil (nd : FolderNode) : itemsAt nd [] = nd.items := rfl

theorem itemsAt_cons (nd : FolderNode) (q : String) (qs : List String) :
    itemsAt nd (q :: qs) =
      match lookupChild q nd.children with
      | some c => itemsAt c qs
      | none => [] := by
  cases hc : lookupChild q nd.children with
  | some c => simp only [itemsAt, descend, hc]
  | none => simp only [itemsAt, descend, hc]

theorem itemsAt_emptyFN : ∀ ps : List String, itemsAt emptyFN ps = []
  | [] => rfl
  | _ :: _ => rfl

/-- Effect of inserting one record on the record list of every node. -/
theorem insert_itemsAt (r : RecordData) : ∀ (parts : List String) (nd : FolderNode)
    (ps : List String), itemsAt (insertRec r parts nd) ps =
      itemsAt nd ps ++ (if ps = parts then [r] else [])
  | [], nd, [] => by
    rw [if_pos rfl]
    cases nd
    rfl
  | [], nd, q :: qs => by
    rw [if_neg (by simp)]
    cases nd with
    | node its ch =>
      rw [insertRec, itemsAt_cons, itemsAt_cons, List.append_nil]
      simp only [FolderNode.children]
  | p :: rest, nd, [] => by
    rw [if_neg (by simp), List.append_nil]
    cases nd
    rfl
  | p :: rest, nd, q :: qs => by
    cases nd with
    | node its ch =>
      rw [insertRec, itemsAt_cons, itemsAt_cons]
      simp only [FolderNode.children]
      by_cases hqp : q = p
      · subst hqp
        rw [lookup_update_self]
        show itemsAt (insertRec r rest ((lookupChild q ch).getD emptyFN)) qs = _
        rw [insert_itemsAt r rest ((lookupChild q ch).getD emptyFN) qs]
        cases hc : lookupChild q ch with
        | some c =>
          simp only [hc, Option.getD]
          by_cases hqs : qs = rest
          · rw [if_pos hqs, if_pos (by rw [hqs])]
          · rw [if_neg hqs, if_neg (by simp [hqs])]
        | none =>
          simp only [hc, Option.getD, itemsAt_emptyFN, List.nil_append]
          by_cases hqs : qs = rest
          · rw [if_pos hqs, if_pos (by rw [hqs])]
          · rw [if_neg hqs, if_neg (by simp [hqs])]
      · rw [lookup_update_ne hqp, if_neg (by simp [hqp]), List.append_nil]

/-- Record placement over the whole build: the node at `ps` holds exactly
the records whose normalized folder path is `ps`, in input order. -/
theorem build_itemsAt : ∀ (records : List RecordData) (nd : FolderNode) (ps : List String),
    itemsAt (records.foldl (fun root r => insertRec r (splitFolder r.folder) root) nd) ps =
      itemsAt nd ps ++ records.filter (fun r => decide (splitFolder r.folder = ps))
  | [], nd, ps => by simp [List.foldl]
  | r :: records, nd, ps => by
    rw [List.foldl_cons, build_itemsAt records _ ps, insert_itemsAt, List.filter_cons]
    by_cases hp : splitFolder r.folder = ps
    · rw [if_pos (by rw [hp]), if_pos (by simp [hp])]
      simp [List.append_assoc]
    · rw [if_neg (fun e => hp e.symm), if_neg (by simp [hp])]
      simp

theorem itemsAt_build (records : List RecordData) (ps : List String) :
    itemsAt (get_folder_structure records) ps =
      records.filter (fun r => decide (splitFolder r.folder = ps)) := by
  rw [get_folder_structure, build_itemsAt, itemsAt_emptyFN, List.nil_append]

theorem descend_emptyFN : ∀ ps : List String, (descend ps emptyFN).isSome = true ↔ ps = []
  | [] => by simp [descend]
  | q :: qs => by
    show (match lookupChild q (emptyFN.children) with
      | some c => descend qs c
      | none => none).isSome = true ↔ _
    simp [lookupChild, emptyFN, FolderNode.children]

theorem descend_cons_isSome (nd : FolderNode) (q : String) (qs : List String) :
    (descend (q :: qs) nd).isSome = true ↔
      ∃ c, lookupChild q nd.children = some c ∧ (descend qs c).isSome = true := by
  show (match lookupChild q nd.children with
    | some c => descend qs c
    | none => none).isSome = true ↔ _
  cases hc : lookupChild q nd.children with
  | some c => simp [hc]
  | none => simp [hc]

/-- Effect of inserting one record on which paths exist. -/
theorem insert_descend (r : RecordData) : ∀ (parts : List String) (nd : FolderNode)
    (ps : List String), (descend ps (insertRec r parts nd)).isSome = true ↔
      ((descend ps nd).isSome = true ∨ ∃ t2, ps ++ t2 = parts)
  | [], nd, [] => by simp [descend]
  | [], nd, q :: qs => by
    cases nd with
    | node its ch =>
      rw [insertRec, descend_cons_isSome, descend_cons_isSome]
      constructor
      · rintro ⟨c, hc, hd⟩
        exact Or.inl ⟨c, hc, hd⟩
      · rintro (⟨c, hc, hd⟩ | ⟨t2, ht2⟩)
        · exact ⟨c, hc, hd⟩
        · simp at ht2
  | p :: rest, nd, [] => by simp [descend]
  | p :: rest, nd, q :: qs => by
    cases nd with
    | node its ch =>
      rw [insertRec, descend_cons_isSome, descend_cons_isSome]
      simp only [FolderNode.items, FolderNode.children]
      by_cases hqp : q = p
      · subst hqp
        constructor
        · rintro ⟨c, hc, hd⟩
          rw [lookup_update_self, Option.some.injEq] at hc
          rw [← hc] at hd
          rw [insert_descend r rest ((lookupChild q ch).getD emptyFN) qs] at hd
          rcases hd with hd | ⟨t2, ht2⟩
          · cases hc2 : lookupChild q ch with
            | some c2 =>
              rw [hc2] at hd
              exact Or.inl ⟨c2, rfl, hd⟩
            | none =>
              rw [hc2] at hd
              simp only [Option.getD] at hd
              rw [descend_emptyFN] at hd
              subst hd
              exact Or.inr ⟨rest, rfl⟩
          · exact Or.inr ⟨t2, by rw [List.cons_append, ht2]⟩
        · intro hyp
          rw [lookup_update_self]
          refine ⟨_, rfl, ?_⟩
          rw [insert_descend r rest ((lookupChild q ch).getD emptyFN) qs]
          rcases hyp with ⟨c, hc, hd⟩ | ⟨t2, ht2⟩
          · rw [hc]
            exact Or.inl hd
          · rw [List.cons_append, List.cons.injEq] at ht2
            exact Or.inr ⟨t2, ht2.2⟩
      · constructor
        · rintro ⟨c, hc, hd⟩
          rw [lookup_update_ne hqp] at hc
          exact Or.inl ⟨c, hc, hd⟩
        · rintro (⟨c, hc, hd⟩ | ⟨t2, ht2⟩)
          · rw [lookup_update_ne hqp]
            exact ⟨c, hc, hd⟩
          · rw [List.cons_append, List.cons.injEq] at ht2
            exact absurd ht2.1 hqp

/-- Which paths exist after the whole build. -/
theorem build_descend : ∀ (records : List RecordData) (nd : FolderNode) (ps : List String),
    (descend ps (records.foldl (fun root r => insertRec r (splitFolder r.folder) root)
      nd)).isSome = true ↔
    ((descend ps nd).isSome = true ∨
      ∃ r ∈ records, ∃ t2, ps ++ t2 = splitFolder r.folder)
  | [], nd, ps => by simp [List.foldl]
  | r :: records, nd, ps => by
    rw [List.foldl_cons, build_descend records _ ps, insert_descend]
    constructor
    · rintro ((hd | ht) | ⟨r2, hr2, ht⟩)
      · exact Or.inl hd
      · exact Or.inr ⟨r, List.mem_cons_self r records, ht⟩
      · exact Or.inr ⟨r2, List.mem_cons_of_mem r hr2, ht⟩
    · rintro (hd | ⟨r2, hr2, ht⟩)
      · exact Or.inl (Or.inl hd)
      · rcases List.mem_cons.mp hr2 with rfl | hr3
        · exact Or.inl (Or.inr ht)
        · exact Or.inr ⟨r2, hr3, ht⟩

theorem descend_build (records : List RecordData) (ps : List String) :
    (descend ps (get_folder_structure records)).isSome = true ↔
      ps = [] ∨ ∃ r ∈ records, ∃ t2, ps ++ t2 = splitFolder r.folder := by
  rw [get_folder_structure, build_descend, descend_emptyFN]

theorem lookupChild_mem {p : String} {c : FolderNode} :
    ∀ {ch : List (String × FolderNode)}, lookupChild p ch = some c → (p, c) ∈ ch
  | [], h => by simp [lookupChild] at h
  | (n, c2) :: rest, h => by
    rw [lookupChild] at h
    by_cases hn : n = p
    · subst hn
      rw [if_pos rfl, Option.some.injEq] at h
      subst h
      exact List.mem_cons_self _ _
    · rw [if_neg hn] at h
      exact List.mem_cons_of_mem _ (lookupChild_mem h)

/-- Every existing nonempty path of the tree is visited by the DFS (given
enough fuel), producing exactly its `/`-joined name. -/
theorem mem_pathsUpTo : ∀ (ps : List String) (fuel : Nat) (cur : String) (nd nd2 : FolderNode),
    descend ps nd = some nd2 → ps ≠ [] → ps.length ≤ fuel →
    ps.foldl extendPath cur ∈ pathsUpTo fuel cur nd
  | [], _, _, _, _, _, hne, _ => absurd rfl hne
  | p :: qs, 0, cur, nd, nd2, _, _, hlen => by simp at hlen
  | p :: qs, fuel + 1, cur, nd, nd2, hdesc, _, hlen => by
    have hstep : descend (p :: qs) nd =
        match lookupChild p nd.children with
        | some c => descend qs c
        | none => none := rfl
    rw [hstep] at hdesc
    cases hc : lookupChild p nd.children with
    | none => rw [hc] at hdesc; exact absurd hdesc (by simp)
    | some c =>
      rw [hc] at hdesc
      rw [pathsUpTo]
      rw [List.mem_flatten]
      refine ⟨extendPath cur p :: pathsUpTo fuel (extendPath cur p) c,
        List.mem_map.mpr ⟨(p, c), lookupChild_mem hc, rfl⟩, ?_⟩
      cases qs with
      | nil => exact List.mem_cons_self _ _
      | cons q2 qs2 =>
        refine List.mem_cons_of_mem _ ?_
        exact mem_pathsUpTo (q2 :: qs2) fuel (extendPath cur p) c nd2 hdesc (by simp)
          (by simpa using Nat.le_of_succ_le_succ hlen)

theorem le_fuelOf {records : List RecordData} {r : RecordData} (hr : r ∈ records) :
    (splitFolder r.folder).length < fuelOf records := by
  have : ∀ R : List RecordData, r ∈ R → (splitFolder r.folder).length ≤
      R.foldr (fun r2 acc => max (splitFolder r2.folder).length acc) 0 := by
    intro R
    induction R with
    | nil => intro h; simp at h
    | cons x xs ih =>
      intro h
      rcases List.mem_cons.mp h with rfl | h2
      · exact le_max_left _ _
      · exact le_trans (ih h2) (le_max_right _ _)
  have h2 := this records hr
  rw [fuelOf]
  omega

theorem head_pySortedSet {l : List String} (h : "" ∈ l) :
    (pySortedSet l).head? = some "" := by
  have hmem : "" ∈ pySortedSet l := (mem_pySortedSet _ _).mpr h
  have hsorted : List.Pairwise strLeP (pySortedSet l) := pairwise_sortStrs (dedupStr l)
  cases hp : pySortedSet l with
  | nil => rw [hp] at hmem; simp at hmem
  | cons x xs =>
    rw [hp] at hmem hsorted
    rcases List.mem_cons.mp hmem with he | he
    · rw [List.head?, ← he]
    · have hle : strLtB "".data x.data = false :=
        (List.pairwise_cons.mp hsorted).1 "" he
      cases hx : x.data with
      | nil =>
        have : x = "" := String.data_eq x "" hx
        rw [List.head?, this]
      | cons c cs =>
        rw [hx] at hle
        exact absurd hle (by simp [strLtB])

theorem itemsAt_eq_items {ps : List String} {nd n2 : FolderNode}
    (h : descend ps nd = some n2) : itemsAt nd ps = n2.items := by
  unfold itemsAt
  rw [h]

theorem itemsAt_eq_nil {ps : List String} {nd : FolderNode}
    (h : descend ps nd = none) : itemsAt nd ps = [] := by
  unfold itemsAt
  rw [h]

/-! Claim theorems. -/

/-- C1, counterexample: `substitute_variables` does not return normally on
every input — the value `\d` makes `re.sub` raise `re.error: bad escape`
(modelled as `none`), so the never-raises claim is false as stated. -/
theorem C1_counterexample : substitute_variables "[[a]]" [("a", "\\d")] = none := by decide

/-- C1, amended: `extract_variables` is total, and `substitute_variables`
returns normally whenever no context value contains a backslash (values
with backslashes are parsed as `re.sub` replacement templates and can
raise). -/
theorem C1_theorem : ∀ (t : String) (ctx : List (String × String)),
    (∀ kv ∈ ctx, kv.2.data.contains '\\' = false) →
    ∃ r, substitute_variables t ctx = some r := by
  intro t ctx h
  by_cases hshort : (t.isEmpty || ctx.isEmpty) = true
  · refine ⟨t, ?_⟩
    unfold substitute_variables
    rw [if_pos hshort]
  · obtain ⟨l2, hl2⟩ := substLoop_total ctx t.data h
    refine ⟨String.mk l2, ?_⟩
    unfold substitute_variables
    rw [if_neg hshort, hl2]
    rfl

/-- C1, witness of the amended theorem at a concrete input. -/
theorem C1_witness :
    (∀ kv ∈ ([("a", "x")] : List (String × String)), kv.2.data.contains '\\' = false) ∧
    ∃ r, substitute_variables "[[a]]" [("a", "x")] = some r :=
  ⟨by decide, C1_theorem "[[a]]" [("a", "x")] (by decide)⟩

/-- C2, counterexample: with context `{a: [[b]], b: Y}` (in that insertion
order) applied to `[[a]]`, the text inserted for `a` IS re-scanned by the
later pass for `b`, producing `Y` — not `[[b]]` as the claim requires. -/
theorem C2_counterexample :
    substitute_variables "[[a]]" [("a", "[[b]]"), ("b", "Y")] = some "Y" ∧
    ("Y" : String) ≠ "[[b]]" := by decide

/-- C2, amended: within one key's pass the inserted replacement is never
re-scanned by that same pass (the scan continues strictly after the
match), but the passes of later context keys re-scan the whole text,
including text inserted by earlier keys. -/
theorem C2_theorem :
    (∀ (k l : List Char) (items : List TItem) (n : Nat), tryKeyAt k l = some n →
      subScanL k items l = expandT items (l.take n) ++ subScanL k items (l.drop n)) ∧
    substitute_variables "[[a]]" [("a", "[[a]]")] = some "[[a]]" ∧
    substitute_variables "[[a]]" [("a", "[[b]]"), ("b", "Y")] = some "Y" :=
  ⟨fun _ _ _ _ h => subScanL_some h, by decide, by decide⟩

/-- C2, witness of the amended theorem at a concrete input. -/
theorem C2_witness :
    tryKeyAt "a".data "[[a]]".data = some 5 ∧
    subScanL "a".data [TItem.lit "X".data] "[[a]]".data =
      expandT [TItem.lit "X".data] ("[[a]]".data.take 5) ++
        subScanL "a".data [TItem.lit "X".data] ("[[a]]".data.drop 5) :=
  ⟨by decide, C2_theorem.1 "a".data "[[a]]".data [TItem.lit "X".data] 5 (by decide)⟩

/-- C3, counterexample: a backslash sequence in the value is reinterpreted
by `re.sub` rather than inserted literally — the two-character value `\n`
is inserted as a newline character. -/
theorem C3_counterexample :
    substitute_variables "x[[a]]y" [("a", "\\n")] = some "x\ny" ∧
    ("x\ny" : String) ≠ "x\\ny" := by decide

/-- C3, amended: a backslash-free value is inserted literally at every
occurrence of the key's placeholder (first conjunct, over arbitrary
well-formed templates); values containing backslashes are treated as
`re.sub` replacement templates instead — e.g. `\g<0>` re-inserts the
matched placeholder text. -/
theorem C3_theorem :
    (∀ (k v : String) (cs : List Chunk), keyOKB k = true →
      v.data.contains '\\' = false → wfChunksB cs = true →
      substOne k v (flattenChunks cs) =
        some (flattenChunks (cs.map (killLit k.data v.data)))) ∧
    substitute_variables "Hi [[name]]!" [("name", "Ada")] = some "Hi Ada!" ∧
    substitute_variables "[[a]]" [("a", "\\g<0>")] = some "[[a]]" :=
  ⟨fun _ _ _ h1 h2 h3 => substOne_chunks h1 h2 h3, by decide, by decide⟩

/-- C3, witness of the amended theorem at a concrete input. -/
theorem C3_witness :
    keyOKB "name" = true ∧ ("Ada" : String).data.contains '\\' = false ∧
    wfChunksB [Chunk.lit "Hi ".data, Chunk.ph [] "name".data [], Chunk.lit "!".data] = true ∧
    substOne "name" "Ada" (flattenChunks
      [Chunk.lit "Hi ".data, Chunk.ph [] "name".data [], Chunk.lit "!".data]) =
      some (flattenChunks ([Chunk.lit "Hi ".data, Chunk.ph [] "name".data [],
        Chunk.lit "!".data].map (killLit "name".data "Ada".data))) :=
  ⟨by decide, by decide, by decide,
    C3_theorem.1 "name" "Ada" _ (by decide) (by decide) (by decide)⟩

/-- C4, confirmed: `extract_variables` always returns a strictly
ascending (hence duplicate-free) list in code-point order, and the
concrete scenario extracts `["age", "name"]`. -/
theorem C4_theorem :
    (∀ s : String, List.Pairwise strLt (extract_variables s)) ∧
    (∀ s : String, (extract_variables s).Nodup) ∧
    extract_variables "Hello [[name]], you are [[ age ]] years old. [[name]] again." =
      ["age", "name"] := by
  refine ⟨?_, ?_, by decide⟩
  · intro s
    rw [extract_variables_eq]
    exact pairwise_strLt_pySortedSet _
  · intro s
    rw [extract_variables_eq]
    exact nodup_pySortedSet _

/-- C8, confirmed: a string with no well-formed `[[identifier]]`
occurrence yields no variables, and the concrete malformed examples all
yield the empty list. -/
theorem C8_theorem :
    (∀ s : String, ¬ HasVar s.data → extract_variables s = []) ∧
    extract_variables "[a] [[a b]] [[x!]] ]] [[ ]]" = [] := by
  refine ⟨?_, by decide⟩
  intro s h
  rw [extract_variables_eq, findVarsL_nil_iff.mpr h]
  rfl

/-- C8, witness: a concrete string with no well-formed placeholder, fed
through the theorem. -/
theorem C8_witness :
    ¬ HasVar ("[a][[a b]]" : String).data ∧ extract_variables "[a][[a b]]" = [] :=
  ⟨findVarsL_nil_iff.mp (by decide),
    C8_theorem.1 "[a][[a b]]" (findVarsL_nil_iff.mp (by decide))⟩

/-- C5, confirmed: every record lands in the item list of exactly the node
reached by descending its normalized folder path (so intermediate nodes on
the path hold no item from it), and `""`, `"/"`, `"///"` all normalize to
the root path. -/
theorem C5_theorem :
    (∀ (records : List RecordData) (r : RecordData), r ∈ records →
      (∃ nd, descend (splitFolder r.folder) (get_folder_structure records) = some nd ∧
        r ∈ nd.items) ∧
      (∀ (ps : List String) (nd : FolderNode),
        descend ps (get_folder_structure records) = some nd →
        r ∈ nd.items → ps = splitFolder r.folder)) ∧
    splitFolder "" = [] ∧ splitFolder "/" = [] ∧ splitFolder "///" = [] := by
  refine ⟨?_, by decide, by decide, by decide⟩
  intro records r hr
  constructor
  · have hentry : r ∈ itemsAt (get_folder_structure records) (splitFolder r.folder) := by
      rw [itemsAt_build, List.mem_filter]
      exact ⟨hr, by simp⟩
    cases hd : descend (splitFolder r.folder) (get_folder_structure records) with
    | none =>
      rw [itemsAt_eq_nil hd] at hentry
      simp at hentry
    | some nd =>
      refine ⟨nd, rfl, ?_⟩
      rw [itemsAt_eq_items hd] at hentry
      exact hentry
  · intro ps nd hd hmem
    have h2 : r ∈ itemsAt (get_folder_structure records) ps := by
      rw [itemsAt_eq_items hd]
      exact hmem
    rw [itemsAt_build, List.mem_filter] at h2
    exact (of_decide_eq_true h2.2).symm

/-- C5, witness at a one-record list with folder `work/coding`. -/
theorem C5_witness :
    RecordData.mk "work/coding" 0 ∈ [RecordData.mk "work/coding" 0] ∧
    ((∃ nd, descend (splitFolder (RecordData.mk "work/coding" 0).folder)
        (get_folder_structure [RecordData.mk "work/coding" 0]) = some nd ∧
      RecordData.mk "work/coding" 0 ∈ nd.items) ∧
    (∀ (ps : List String) (nd : FolderNode),
      descend ps (get_folder_structure [RecordData.mk "work/coding" 0]) = some nd →
      RecordData.mk "work/coding" 0 ∈ nd.items →
      ps = splitFolder (RecordData.mk "work/coding" 0).folder)) :=
  ⟨by decide,
    C5_theorem.1 [RecordData.mk "work/coding" 0] (RecordData.mk "work/coding" 0) (by decide)⟩

/-- C6, counterexample: the template `[[ [[a]] ]] [[x]]` with context
`{x: q, a: x}` satisfies the claim's hypotheses (all extracted variables
are keys, no value contains brackets) yet the output `[[ x ]] q` again
extracts the substituted name `x` — substituting inside `[[ [[a]] ]]`
re-forms a placeholder. -/
theorem C6_counterexample :
    (∀ v ∈ extract_variables "[[ [[a]] ]] [[x]]",
      ∃ kv ∈ ([("x", "q"), ("a", "x")] : List (String × String)), kv.1 = v) ∧
    (∀ kv ∈ ([("x", "q"), ("a", "x")] : List (String × String)),
      ∀ c ∈ kv.2.data, c ≠ '[' ∧ c ≠ ']') ∧
    substitute_variables "[[ [[a]] ]] [[x]]" [("x", "q"), ("a", "x")] = some "[[ x ]] q" ∧
    ("x", "q") ∈ ([("x", "q"), ("a", "x")] : List (String × String)) ∧
    "x" ∈ extract_variables "[[ x ]] q" := by decide

/-- C6, amended: if the template decomposes into well-formed chunks
(every `[` or `]` is part of a placeholder), every context key is a word
identifier and no context value contains a bracket or backslash, then
substitution succeeds and no context key survives as an extractable
variable of the output. -/
theorem C6_theorem : ∀ (t : String) (ctx : List (String × String)) (cs : List Chunk),
    t.data = flattenChunks cs → wfChunksB cs = true →
    (∀ kv ∈ ctx, keyOKB kv.1 = true ∧ valOKB kv.2 = true) →
    (∀ v ∈ extract_variables t, ∃ kv ∈ ctx, kv.1 = v) →
    ∃ r, substitute_variables t ctx = some r ∧
      ∀ kv ∈ ctx, kv.1 ∉ extract_variables r := by
  intro t ctx cs hflat hwf hctx _hcover
  by_cases hshort : (t.isEmpty || ctx.isEmpty) = true
  · refine ⟨t, ?_, ?_⟩
    · unfold substitute_variables
      rw [if_pos hshort]
    · have hcases : t.isEmpty = true ∨ ctx.isEmpty = true := by
        simpa using hshort
      rcases hcases with h | h
      · intro kv _ hmem
        rw [mem_extract, isEmpty_iff_data.mp h] at hmem
        have hnil : findVarsL ([] : List Char) = [] := rfl
        rw [hnil] at hmem
        simp at hmem
      · intro kv hkv
        cases ctx with
        | nil => simp at hkv
        | cons a l => simp [List.isEmpty] at h
  · obtain ⟨cs2, hloop, hwf2, hids⟩ := substLoop_chunks ctx cs hwf hctx
    refine ⟨String.mk (flattenChunks cs2), ?_, ?_⟩
    · unfold substitute_variables
      rw [if_neg hshort, hflat, hloop]
      rfl
    · intro kv hkv hmem
      rw [mem_extract] at hmem
      have hmem2 : kv.1 ∈ findVarsL (flattenChunks cs2) := hmem
      rw [findVarsL_flatten hwf2] at hmem2
      exact (hids kv.1 hmem2).2 kv hkv rfl

/-- C6, witness of the amended theorem at a concrete chunked template. -/
theorem C6_witness :
    ("Hi [[name]]!" : String).data = flattenChunks
      [Chunk.lit "Hi ".data, Chunk.ph [] "name".data [], Chunk.lit "!".data] ∧
    wfChunksB [Chunk.lit "Hi ".data, Chunk.ph [] "name".data [], Chunk.lit "!".data] = true ∧
    (∀ kv ∈ ([("name", "Ada")] : List (String × String)),
      keyOKB kv.1 = true ∧ valOKB kv.2 = true) ∧
    (∀ v ∈ extract_variables "Hi [[name]]!",
      ∃ kv ∈ ([("name", "Ada")] : List (String × String)), kv.1 = v) ∧
    ∃ r, substitute_variables "Hi [[name]]!" [("name", "Ada")] = some r ∧
      ∀ kv ∈ ([("name", "Ada")] : List (String × String)), kv.1 ∉ extract_variables r :=
  ⟨by decide, by decide, by decide, by decide,
    C6_theorem "Hi [[name]]!" [("name", "Ada")]
      [Chunk.lit "Hi ".data, Chunk.ph [] "name".data [], Chunk.lit "!".data]
      (by decide) (by decide) (by decide) (by decide)⟩

/-- C7, counterexample: a context key containing bracket syntax
(`b]] [[c`) matches ACROSS two placeholders, so the placeholder `[[b]]`,
whose identifier `b` is not a key of the context, is destroyed rather than
left unchanged. -/
theorem C7_counterexample :
    "b" ∈ extract_variables "[[b]] [[c]]" ∧
    (∀ kv ∈ ([("b]] [[c", "Z")] : List (String × String)), kv.1 ≠ "b") ∧
    substitute_variables "[[b]] [[c]]" [("b]] [[c", "Z")] = some "Z" ∧
    "b" ∉ extract_variables "Z" := by decide

/-- C7, amended: substitution with an empty context is the identity, and
when every context key is a word identifier, any placeholder whose
identifier is not a key survives into the output; the concrete missing-key
example gives `X[[b]]`. -/
theorem C7_theorem :
    (∀ t : String, substitute_variables t [] = some t) ∧
    (∀ (t : String) (ctx : List (String × String)) (r b : String),
      (∀ kv ∈ ctx, keyOKB kv.1 = true) →
      b ∈ extract_variables t →
      (∀ kv ∈ ctx, kv.1 ≠ b) →
      substitute_variables t ctx = some r →
      b ∈ extract_variables r) ∧
    substitute_variables "[[a]][[b]]" [("a", "X")] = some "X[[b]]" := by
  refine ⟨?_, ?_, by decide⟩
  · intro t
    unfold substitute_variables
    rw [if_pos (by simp)]
  · intro t ctx r b hkeys hmem hne hsub
    have hmem2 : b ∈ findVarsL t.data := mem_extract.mp hmem
    obtain ⟨a, w1, bb, w2, rr, hdec, hw1, hb, hbne, hw2, hbeq⟩ := findVarsL_sound hmem2
    unfold substitute_variables at hsub
    by_cases hshort : (t.isEmpty || ctx.isEmpty) = true
    · rw [if_pos hshort, Option.some.injEq] at hsub
      rw [← hsub]
      exact hmem
    · rw [if_neg hshort] at hsub
      cases hloop : substLoop ctx t.data with
      | none =>
        rw [hloop] at hsub
        simp at hsub
      | some l2 =>
        rw [hloop] at hsub
        have hr : r = String.mk l2 := by
          rw [show (some l2).map String.mk = some (String.mk l2) from rfl,
            Option.some.injEq] at hsub
          exact hsub.symm
        have hkd : ∀ kv ∈ ctx, kv.1.data ≠ bb := by
          intro kv hkv he
          apply hne kv hkv
          apply String.data_eq
          rw [he, hbeq]
        obtain ⟨a2, r2, hl2⟩ :=
          substLoop_preserves_ph hw1 hb hbne hw2 ctx t.data l2 hkeys hkd ⟨a, rr, hdec⟩ hloop
        have hfin : String.mk bb ∈ findVarsL l2 := mem_findVarsL_of_decomp hl2 hw1 hb hbne hw2
        rw [hr, mem_extract, hbeq]
        exact hfin

/-- C7, witness: the concrete missing-key scenario fed through the
preservation part of the theorem. -/
theorem C7_witness :
    (∀ kv ∈ ([("a", "X")] : List (String × String)), keyOKB kv.1 = true) ∧
    "b" ∈ extract_variables "[[a]][[b]]" ∧
    (∀ kv ∈ ([("a", "X")] : List (String × String)), kv.1 ≠ "b") ∧
    substitute_variables "[[a]][[b]]" [("a", "X")] = some "X[[b]]" ∧
    "b" ∈ extract_variables "X[[b]]" :=
  ⟨by decide, by decide, by decide, by decide,
    C7_theorem.2.1 "[[a]][[b]]" [("a", "X")] "X[[b]]" "b"
      (by decide) (by decide) (by decide) (by decide)⟩

/-- C9, confirmed: path enumeration returns a strictly sorted
(hence deduplicated) list whose first entry is the root path `""`, and it
contains every segment-prefix of every record's normalized folder path;
the one-record `a/b/c` example enumerates all four prefixes. -/
theorem C9_theorem :
    (∀ records : List RecordData,
      List.Pairwise strLt (get_all_paths records) ∧
      (get_all_paths records).head? = some "" ∧
      (∀ r ∈ records, ∀ (ps t2 : List String), ps ++ t2 = splitFolder r.folder →
        ps.foldl extendPath "" ∈ get_all_paths records)) ∧
    get_all_paths [RecordData.mk "a/b/c" 0] = ["", "a", "a/b", "a/b/c"] := by
  refine ⟨?_, by decide⟩
  intro records
  refine ⟨?_, ?_, ?_⟩
  · unfold get_all_paths
    exact pairwise_strLt_pySortedSet _
  · unfold get_all_paths
    exact head_pySortedSet (List.mem_cons_self _ _)
  · intro r hr ps t2 hps
    unfold get_all_paths
    rw [mem_pySortedSet]
    cases hps0 : ps with
    | nil => simp
    | cons q qs =>
      rw [← hps0]
      apply List.mem_cons_of_mem
      have hsome : (descend ps (get_folder_structure records)).isSome = true := by
        rw [descend_build]
        exact Or.inr ⟨r, hr, t2, hps⟩
      obtain ⟨nd2, hnd2⟩ := Option.isSome_iff_exists.mp hsome
      apply mem_pathsUpTo ps (fuelOf records) "" _ nd2 hnd2 (by rw [hps0]; simp)
      have hlen : ps.length ≤ (splitFolder r.folder).length := by
        rw [← hps, List.length_append]
        omega
      have hfuel := le_fuelOf hr
      omega

/-- C9, witness: the prefix `a/b` of the folder `a/b/c` is enumerated. -/
theorem C9_witness :
    RecordData.mk "a/b/c" 0 ∈ [RecordData.mk "a/b/c" 0] ∧
    ["a", "b"] ++ ["c"] = splitFolder (RecordData.mk "a/b/c" 0).folder ∧
    List.foldl extendPath "" ["a", "b"] ∈ get_all_paths [RecordData.mk "a/b/c" 0] :=
  ⟨by decide, by decide,
    (C9_theorem.1 [RecordData.mk "a/b/c" 0]).2.2 (RecordData.mk "a/b/c" 0) (by decide)
      ["a", "b"] ["c"] (by decide)⟩

/-- C10, confirmed: every non-root node of the built tree lies on the
normalized folder path of some record, and descending the rest of that
record's path from it reaches a node with a non-empty item list — the
builder creates no phantom folder chain. -/
theorem C10_theorem : ∀ (records : List RecordData) (ps : List String) (nd : FolderNode),
    descend ps (get_folder_structure records) = some nd → ps ≠ [] →
    ∃ r ∈ records, (∃ t2, ps ++ t2 = splitFolder r.folder) ∧
      ∃ qs nd2, descend (ps ++ qs) (get_folder_structure records) = some nd2 ∧
        nd2.items ≠ [] := by
  intro records ps nd hd hne
  have hsome : (descend ps (get_folder_structure records)).isSome = true := by
    rw [hd]
    rfl
  rcases (descend_build records ps).mp hsome with h | ⟨r, hr, t2, ht⟩
  · exact absurd h hne
  · refine ⟨r, hr, ⟨t2, ht⟩, t2, ?_⟩
    have hentry : r ∈ itemsAt (get_folder_structure records) (splitFolder r.folder) := by
      rw [itemsAt_build, List.mem_filter]
      exact ⟨hr, by simp⟩
    cases hd2 : descend (splitFolder r.folder) (get_folder_structure records) with
    | none =>
      rw [itemsAt_eq_nil hd2] at hentry
      simp at hentry
    | some nd2 =>
      refine ⟨nd2, ?_, ?_⟩
      · rw [ht]
        exact hd2
      · rw [itemsAt_eq_items hd2] at hentry
        exact List.ne_nil_of_mem hentry

/-- C10, witness: the intermediate node `a` of one record with folder
`a/b` is on that record's path and reaches the non-empty node `a/b`. -/
theorem C10_witness :
    (["a"] : List String) ≠ [] ∧
    ∃ r ∈ [RecordData.mk "a/b" 0], (∃ t2, ["a"] ++ t2 = splitFolder r.folder) ∧
      ∃ qs nd2, descend (["a"] ++ qs) (get_folder_structure [RecordData.mk "a/b" 0]) = some nd2 ∧
        nd2.items ≠ [] :=
  ⟨by decide, C10_theorem [RecordData.mk "a/b" 0] ["a"]
    (FolderNode.node [] [("b", FolderNode.node [RecordData.mk "a/b" 0] [])])
    (by rfl) (by decide)⟩

end Promptbox
